import Mathlib

/-!
Verification of the `fieldmask` Go package (protobuf field masking for
projections and updates) against its natural-language specification.

The development shallowly embeds the package's core: the path grammar
(`parse.go`), map-key codecs (`map.go`), the mask tree with its six field-mask
variants (`scalar.go`, `list.go`, `map.go`, `message.go`), the shared
copy/update routines (`settings.go`), and the public facade (`fieldmask.go`).
Go strings are modelled as lists of runes (faithful for valid UTF-8 input,
since the delimiters involved are ASCII), protobuf messages as canonical
sorted association lists (Go maps are unordered and protobuf observational
equality identifies an empty list/map field with an absent one), and the
in-place mutating operations as pure state transformers.
-/

set_option autoImplicit false

/-- Go strings, as lists of runes. -/
abbrev GoStr := List Char

/-- Embed a Lean string literal as a `GoStr`. -/
def gs (s : String) : GoStr := s.data

/-- The backquote rune, U+0060. -/
def bq : Char := Char.ofNat 96

/-- Lexicographic byte order on strings, as used by Go's `sort.Strings`
(UTF-8 byte order coincides with rune order). -/
def strLtB : GoStr → GoStr → Bool
  | [], [] => false
  | [], _ :: _ => true
  | _ :: _, [] => false
  | a :: as, b :: bs => if a = b then strLtB as bs else decide (a < b)

/-- Insert into a list sorted by `lt`. -/
def insertSorted {α : Type} (lt : α → α → Bool) (a : α) : List α → List α
  | [] => [a]
  | b :: bs => if lt a b then a :: b :: bs else b :: insertSorted lt a bs

/-- Sort a list by `lt` (insertion sort). -/
def sortByB {α : Type} (lt : α → α → Bool) (xs : List α) : List α :=
  xs.foldr (insertSorted lt) []

/-- Association-list lookup (first match), used to model Go map reads. -/
def alookup {κ α : Type} [DecidableEq κ] (k : κ) : List (κ × α) → Option α
  | [] => none
  | (k', v) :: rest => if k = k' then some v else alookup k rest

/-- Association-list insert-or-replace keeping the list sorted by `lt`;
the canonical model of a Go map write. -/
def ainsert {κ α : Type} [DecidableEq κ] (lt : κ → κ → Bool) (k : κ) (v : α) :
    List (κ × α) → List (κ × α)
  | [] => [(k, v)]
  | (k', v') :: rest =>
    if k = k' then (k, v) :: rest
    else if lt k k' then (k, v) :: (k', v') :: rest
    else (k', v') :: ainsert lt k v rest

/-- Association-list delete; the model of a Go map delete. -/
def aremove {κ α : Type} [DecidableEq κ] (k : κ) (es : List (κ × α)) : List (κ × α) :=
  es.filter (fun e => !(e.1 = k : Bool))

/-- Delimiter runes of the path grammar. -/
def isDelim (c : Char) : Bool := c = '.' ∨ c = ','

/-- Split a string at the first backquote: `splitBack cs = some (mid, rest)`
iff `cs = mid ++ bq :: rest` with no backquote in `mid`.  Models the closing
scan of `strconv.QuotedPrefix`. -/
def splitBack : GoStr → Option (GoStr × GoStr)
  | [] => none
  | c :: cs =>
    if c = bq then some ([], cs)
    else
      match splitBack cs with
      | none => none
      | some (m, r) => some (c :: m, r)

/-- `nextToken` from parse.go: `.`/`,`/`*` are single-rune tokens, a leading
backquote starts a quoted token extending to the next backquote, anything
else is an identifier run ending at the next `.`/`,`. -/
def nextToken (s : GoStr) : Option (GoStr × GoStr) :=
  match s with
  | [] => none
  | c :: cs =>
    if c = '.' ∨ c = ',' ∨ c = '*' then some ([c], cs)
    else if c = bq then
      match splitBack cs with
      | none => none
      | some (mid, rest) => some (bq :: (mid ++ [bq]), rest)
    else
      some ((c :: cs).takeWhile (fun d => !isDelim d), (c :: cs).dropWhile (fun d => !isDelim d))

theorem splitBack_append {cs m r : GoStr} (h : splitBack cs = some (m, r)) :
    cs = m ++ bq :: r := by
  induction cs generalizing m r with
  | nil => simp [splitBack] at h
  | cons c cs ih =>
    by_cases hc : c = bq
    · simp [splitBack, hc] at h
      simp [← h.1, ← h.2, hc]
    · simp only [splitBack, if_neg hc] at h
      cases hsb : splitBack cs with
      | none => rw [hsb] at h; exact absurd h (by simp)
      | some p =>
        obtain ⟨m', r'⟩ := p
        rw [hsb] at h
        simp at h
        obtain ⟨h1, h2⟩ := h
        subst h2
        simp [← h1, ih hsb]

theorem nextToken_append {s t r : GoStr} (h : nextToken s = some (t, r)) :
    s = t ++ r ∧ t ≠ [] := by
  match s with
  | [] => simp [nextToken] at h
  | c :: cs =>
    simp only [nextToken] at h
    by_cases h1 : c = '.' ∨ c = ',' ∨ c = '*'
    · rw [if_pos h1] at h
      simp at h
      simp [← h.1, ← h.2]
    · rw [if_neg h1] at h
      by_cases h2 : c = bq
      · rw [if_pos h2] at h
        cases hsb : splitBack cs with
        | none => rw [hsb] at h; exact absurd h (by simp)
        | some p =>
          obtain ⟨mid, rest⟩ := p
          rw [hsb] at h
          simp at h
          have := splitBack_append hsb
          constructor
          · rw [← h.1, ← h.2, h2, this]; simp
          · rw [← h.1]; simp
      · rw [if_neg h2] at h
        simp at h
        constructor
        · rw [← h.1, ← h.2, List.takeWhile_append_dropWhile]
        · rw [← h.1]
          simp only [List.takeWhile]
          have hcd : !isDelim c := by
            simp [isDelim]
            push_neg at h1
            exact ⟨h1.1, h1.2.1⟩
          simp [hcd]

theorem nextToken_shrinks {s t r : GoStr} (h : nextToken s = some (t, r)) :
    r.length < s.length := by
  obtain ⟨happ, hne⟩ := nextToken_append h
  rw [happ, List.length_append]
  have : 0 < t.length := List.length_pos.mpr hne
  omega

/-- The loop of `nextPath` from parse.go.  `s` is the original input, `rest`
the remaining suffix.  The loop consumes at least two runes of `rest` per
iteration, so any fuel above `rest.length` is never exhausted
(`nextPathAux_fuel_stable`); fuel keeps the definition kernel-reducible. -/
def nextPathAux : Nat → GoStr → GoStr → Option (GoStr × GoStr)
  | 0, _, _ => none
  | fuel + 1, s, rest =>
    match nextToken rest with
    | none => none
    | some (tok, r1) =>
      if tok = ['.'] ∨ tok = [','] then none
      else if r1 = [] then some (s, [])
      else
        match nextToken r1 with
        | none => none
        | some (tok2, r2) =>
          if r2 = [] then none
          else if tok2 = [','] then some (s.take (s.length - r2.length - 1), r2)
          else if tok2 = ['.'] then nextPathAux fuel s r2
          else none

/-- `nextPath` from parse.go: consume one comma-delimited path. `none` is the
syntax error. -/
def nextPath (s : GoStr) : Option (GoStr × GoStr) :=
  if s = [] then none else nextPathAux (s.length + 1) s s

/-- The fuel given to `nextPathAux` is immaterial above `rest.length`. -/
theorem nextPathAux_fuel_stable {f g : Nat} (s : GoStr) (rest : GoStr)
    (hf : rest.length < f) (hg : rest.length < g) :
    nextPathAux f s rest = nextPathAux g s rest := by
  induction f generalizing g rest with
  | zero => omega
  | succ f ih =>
    match g, hg with
    | g + 1, hg =>
      simp only [nextPathAux]
      cases h1 : nextToken rest with
      | none => rfl
      | some p1 =>
        obtain ⟨tok, r1⟩ := p1
        have s1 := nextToken_shrinks h1
        simp only
        by_cases e1 : tok = ['.'] ∨ tok = [',']
        · simp [e1]
        · simp only [if_neg e1]
          by_cases e2 : r1 = []
          · simp [e2]
          · simp only [if_neg e2]
            cases h2 : nextToken r1 with
            | none => rfl
            | some p2 =>
              obtain ⟨tok2, r2⟩ := p2
              have s2 := nextToken_shrinks h2
              simp only
              by_cases e3 : r2 = []
              · simp [e3]
              · simp only [if_neg e3]
                by_cases e4 : tok2 = [',']
                · simp [e4]
                · simp only [if_neg e4]
                  by_cases e5 : tok2 = ['.']
                  · simp only [if_pos e5]
                    exact ih r2 (by omega) (by omega)
                  · simp [e5]

/-- `nextSegment` from parse.go: consume one dot-delimited segment of the
first path. -/
def nextSegment (s : GoStr) : Option (GoStr × GoStr) :=
  match nextToken s with
  | none => none
  | some (seg, r) =>
    if seg = ['.'] ∨ seg = [','] then none
    else if r = [] then some (seg, [])
    else
      match nextToken r with
      | none => none
      | some (tok2, r2) =>
        if tok2 ≠ ['.'] ∨ r2 = [] then none else some (seg, r2)

/-- `joinPath` from parse.go. -/
def joinPath (a b : GoStr) : GoStr := a ++ '.' :: b

/-- `unicode.IsControl`, restricted to the Latin-1 range it checks. -/
def goIsControl (c : Char) : Bool :=
  c.val < 32 ∨ c.val = 127 ∨ (128 ≤ c.val ∧ c.val ≤ 159)

/-- `strconv.IsPrint`; exact on ASCII, and approximated above U+00A0 by the
dominant printable case (no claim exercises non-ASCII printability). -/
def goIsPrint (c : Char) : Bool :=
  (32 ≤ c.val ∧ c.val ≤ 126) ∨ 160 ≤ c.val

/-- `shouldQuote` from parse.go. -/
def shouldQuote (s : GoStr) : Bool :=
  if s = [] ∨ s = ['*'] then true
  else s.any (fun c => isDelim c ∨ c = bq ∨ goIsControl c ∨ !goIsPrint c)

/-- Modelled from the spec: `internal/quote.With(segment, backquote)` is not
under src/; per spec section 4.1 serialization is the exact inverse of the
quote-aware parse, so quoting wraps the segment in backquotes (the exact
inverse of `strconv.Unquote` on a raw string wherever one exists). -/
def quoteWith (s : GoStr) : GoStr := bq :: (s ++ [bq])

/-- `maybeQuote` from parse.go. -/
def maybeQuote (s : GoStr) : GoStr :=
  if shouldQuote s then quoteWith s else s

/-- `strconv.Unquote` on a backquoted (raw) string: the quotes must enclose
the whole input, the body contains no backquote, and carriage returns are
discarded. -/
def goUnquoteBack (s : GoStr) : Option GoStr :=
  match s with
  | [] => none
  | c :: cs =>
    if c = bq then
      match splitBack cs with
      | some (mid, []) => some (mid.filter (fun d => !(d = '\r' : Bool)))
      | _ => none
    else none

example : nextPath (gs "foo.bar") = some (gs "foo.bar", []) := by decide
example : nextPath (gs "foo,bar") = some (gs "foo", gs "bar") := by decide
example : nextPath (gs "foo.") = none := by decide
example : nextPath (gs "foo,") = none := by decide
example : nextPath [] = none := by decide
example : nextPath (gs ".") = none := by decide
example : nextPath (gs "`foo.bar`") = some (gs "`foo.bar`", []) := by decide
example : nextPath (gs "`foo.bar") = none := by decide
example : nextPath (gs "`foo.bar`123.qux") = none := by decide
example : nextPath (gs "foo.*.123,bar.qux") = some (gs "foo.*.123", gs "bar.qux") := by decide
example : nextSegment (gs "foo.bar.baz") = some (gs "foo", gs "bar.baz") := by decide
example : nextSegment (gs "foo,bar") = none := by decide
example : nextSegment (gs "`foo.bar`") = some (gs "`foo.bar`", []) := by decide

/-- Decimal digit value of a rune. -/
def digitVal (c : Char) : Option Nat :=
  if '0' ≤ c ∧ c ≤ '9' then some (c.toNat - 48) else none

/-- Parse a nonempty all-digit decimal string (`strconv` base-10 digits). -/
def parseDigits (cs : GoStr) : Option Nat :=
  if cs = [] then none
  else
    cs.foldl
      (fun acc c =>
        match acc, digitVal c with
        | some n, some d => some (n * 10 + d)
        | _, _ => none)
      (some 0)

/-- `strconv.ParseUint(s, 10, bits)`: digits only (no sign), range-checked. -/
def goParseUint (bits : Nat) (s : GoStr) : Option Nat :=
  match parseDigits s with
  | none => none
  | some n => if n < 2 ^ bits then some n else none

/-- `strconv.ParseInt(s, 10, bits)`: optional sign, digits, range-checked. -/
def goParseInt (bits : Nat) (s : GoStr) : Option Int :=
  match s with
  | '+' :: rest =>
    match parseDigits rest with
    | none => none
    | some n => if n ≤ 2 ^ (bits - 1) - 1 then some (n : Int) else none
  | '-' :: rest =>
    match parseDigits rest with
    | none => none
    | some n => if n ≤ 2 ^ (bits - 1) then some (-(n : Int)) else none
  | _ =>
    match parseDigits s with
    | none => none
    | some n => if n ≤ 2 ^ (bits - 1) - 1 then some (n : Int) else none

/-- `strconv.ParseBool`. -/
def goParseBool (s : GoStr) : Option Bool :=
  if s = gs "1" ∨ s = gs "t" ∨ s = gs "T" ∨ s = gs "true" ∨ s = gs "TRUE" ∨ s = gs "True" then
    some true
  else if s = gs "0" ∨ s = gs "f" ∨ s = gs "F" ∨ s = gs "false" ∨ s = gs "FALSE" ∨ s = gs "False" then
    some false
  else none

/-- Decimal rendering of a natural number. -/
def natStr (n : Nat) : GoStr := (Nat.repr n).data

/-- Decimal rendering of an integer (`strconv.FormatInt`). -/
def intStr : Int → GoStr
  | .ofNat n => natStr n
  | .negSucc m => '-' :: natStr (m + 1)

/-- The map key kinds of the schema (sign-preserving alternates such as
`sint32`/`sfixed32` share a codec with their base kind, as in map.go). -/
inductive KeyKind where
  | kkString
  | kkBool
  | kkInt32
  | kkInt64
  | kkUint32
  | kkUint64
deriving DecidableEq, Repr

/-- A typed map key.  The Go code represents bool keys as an ordered byte
`0`/`1`; `Bool` with `false < true` is the same order. -/
inductive Key where
  | kStr (s : GoStr)
  | kBool (b : Bool)
  | kInt (v : Int)
  | kUint (v : Nat)
deriving DecidableEq, Repr

/-- `keyFuncs.key` from map.go: unquote a backquoted segment, then parse it
with the kind's codec. -/
def keyParse (kk : KeyKind) (raw : GoStr) : Option Key :=
  let un : Option GoStr :=
    match raw with
    | c :: _ => if c = bq then goUnquoteBack raw else some raw
    | [] => some raw
  match un with
  | none => none
  | some s =>
    match kk with
    | .kkString => some (.kStr s)
    | .kkBool => (goParseBool s).map .kBool
    | .kkInt32 => (goParseInt 32 s).map .kInt
    | .kkInt64 => (goParseInt 64 s).map .kInt
    | .kkUint32 => (goParseUint 32 s).map .kUint
    | .kkUint64 => (goParseUint 64 s).map .kUint

/-- `keyFuncs.format` from map.go. -/
def keyFormat : Key → GoStr
  | .kStr s => s
  | .kBool b => if b then gs "true" else gs "false"
  | .kInt v => intStr v
  | .kUint v => natStr v

/-- Constructor tag, for a total order across kinds (keys of one map always
share a kind). -/
def keyTag : Key → Nat
  | .kStr _ => 0
  | .kBool _ => 1
  | .kInt _ => 2
  | .kUint _ => 3

/-- The codec order used by `slices.Sort` on keys. -/
def keyLtB : Key → Key → Bool
  | .kStr a, .kStr b => strLtB a b
  | .kBool a, .kBool b => !a && b
  | .kInt a, .kInt b => decide (a < b)
  | .kUint a, .kUint b => decide (a < b)
  | a, b => decide (keyTag a < keyTag b)

/-- Field kinds, as classified by `newFieldMask` (list / map / message /
scalar, with element, value and key kinds where applicable).  `isBytes`
distinguishes byte sequences, which the code deep-copies; value-level
deep equality makes the copy coincide with the original. -/
inductive FieldKind where
  | scalarK (isBytes : Bool)
  | msgK (ty : Nat)
  | listScalarK (isBytes : Bool)
  | listMsgK (ty : Nat)
  | mapScalarK (kk : KeyKind) (isBytes : Bool)
  | mapMsgK (kk : KeyKind) (ty : Nat)
deriving DecidableEq, Repr

/-- A field descriptor: text name, JSON name, kind, extension flag. -/
structure FieldDecl where
  name : GoStr
  jsonName : GoStr
  kind : FieldKind
  isExt : Bool
deriving DecidableEq, Repr

/-- A message descriptor: its field descriptors in declaration order. -/
abbrev MsgDecl := List FieldDecl

/-- A schema: message descriptors indexed by type number. -/
abbrev Schema := List MsgDecl

/-- Look up a message descriptor. -/
def Schema.msgDecl (S : Schema) (t : Nat) : MsgDecl := S.getD t []

/-- Field-name lookup modes (settings.go has text/JSON, each strict or with
fallback to the other name). -/
inductive FieldNameMode where
  | textF
  | jsonF
  | textStrictF
  | jsonStrictF
deriving DecidableEq, Repr

/-- `MaskUnknowns` from fieldmask.go. -/
inductive MaskUnknowns where
  | removes
  | retains
deriving DecidableEq, Repr

/-- `UpdateUnknowns` from fieldmask.go. -/
inductive UpdateUnknowns where
  | uRetains
  | uAppends
  | uReplaces
deriving DecidableEq, Repr

/-- `UpdateRepeated` from fieldmask.go. -/
inductive UpdateRepeated where
  | rReplaces
  | rAppends
deriving DecidableEq, Repr

/-- The `settings` struct shared by reference across the mask tree. -/
structure Settings where
  extensions : Bool
  lookupMode : FieldNameMode
  maskUnknowns : MaskUnknowns
  updateUnknowns : UpdateUnknowns
  updateRepeated : UpdateRepeated
deriving DecidableEq, Repr

/-- The zero-value settings with the default text-name lookup, as built by
`newFieldMaskT`. -/
def defaultSettings : Settings :=
  ⟨false, .textF, .removes, .uRetains, .rReplaces⟩

/-- `FieldDescriptors.ByTextName` (extensions are not in `Fields()`). -/
def findByText (fs : MsgDecl) (n : GoStr) : Option FieldDecl :=
  fs.find? (fun fd => !fd.isExt && fd.name = n)

/-- `FieldDescriptors.ByJSONName`. -/
def findByJSON (fs : MsgDecl) (n : GoStr) : Option FieldDecl :=
  fs.find? (fun fd => !fd.isExt && fd.jsonName = n)

/-- The four `fieldLookupFunc`s of settings.go, selected by mode; returns the
canonical key used in the mask's field table together with the descriptor. -/
def lookupField (st : Settings) (fs : MsgDecl) (n : GoStr) : Option (GoStr × FieldDecl) :=
  match st.lookupMode with
  | .textF =>
    match findByText fs n with
    | some fd => some (fd.name, fd)
    | none =>
      match findByJSON fs n with
      | some fd => some (fd.name, fd)
      | none => none
  | .jsonF =>
    match findByJSON fs n with
    | some fd => some (fd.jsonName, fd)
    | none =>
      match findByText fs n with
      | some fd => some (fd.jsonName, fd)
      | none => none
  | .textStrictF => (findByText fs n).map (fun fd => (fd.name, fd))
  | .jsonStrictF => (findByJSON fs n).map (fun fd => (fd.jsonName, fd))

/-- `settings.allow`: extension fields pass only when extensions are
enabled. -/
def allowFd (st : Settings) (fd : FieldDecl) : Bool :=
  !(fd.isExt && !st.extensions)

mutual
/-- A protobuf value: scalar (payload abstracted; bytes deep-copies are
value-equal), message, scalar/message list, scalar/message map. -/
inductive Val : Type where
  | vScalar (n : Nat)
  | vMsg (m : Msg)
  | vListS (xs : List Nat)
  | vListM (ms : List Msg)
  | vMapS (es : List (Key × Nat))
  | vMapM (es : List (Key × Msg))

/-- A message: type number, present fields sorted by field name, unknown
bytes.  List and map fields are present iff nonempty (protobuf `Has`
semantics), which the field-write operations below maintain. -/
inductive Msg : Type where
  | mk (ty : Nat) (fields : List (GoStr × Val)) (unknown : List Nat)
end

def Msg.ty : Msg → Nat
  | .mk t _ _ => t

def Msg.fields : Msg → List (GoStr × Val)
  | .mk _ f _ => f

def Msg.unknown : Msg → List Nat
  | .mk _ _ u => u

/-- An empty list or map value: observationally absent. -/
def Val.isEmptyContainer : Val → Bool
  | .vListS [] => true
  | .vListM [] => true
  | .vMapS [] => true
  | .vMapM [] => true
  | _ => false

def Val.asListS : Val → List Nat
  | .vListS xs => xs
  | _ => []

def Val.asListM : Val → List Msg
  | .vListM ms => ms
  | _ => []

def Val.asMapS : Val → List (Key × Nat)
  | .vMapS es => es
  | _ => []

def Val.asMapM : Val → List (Key × Msg)
  | .vMapM es => es
  | _ => []

def Val.asMsg : Val → Option Msg
  | .vMsg m => some m
  | _ => none

/-- Read a field (`Message.Get`/`Has`: present fields only). -/
def msgGet (m : Msg) (n : GoStr) : Option Val :=
  alookup n m.fields

def msgHasF (m : Msg) (n : GoStr) : Bool :=
  (msgGet m n).isSome

/-- `Message.Clear`. -/
def msgClearF (m : Msg) (n : GoStr) : Msg :=
  .mk m.ty (aremove n m.fields) m.unknown

/-- `Message.Set`, normalizing empty containers to absence (an empty list or
map field reports `Has = false`). -/
def msgSet (m : Msg) (n : GoStr) (v : Val) : Msg :=
  if v.isEmptyContainer then msgClearF m n
  else .mk m.ty (ainsert strLtB n v m.fields) m.unknown

/-- `Message.SetUnknown`. -/
def msgSetUnknown (m : Msg) (u : List Nat) : Msg :=
  .mk m.ty m.fields u

theorem alookup_sizeOf {κ α : Type} [DecidableEq κ] [SizeOf κ] [SizeOf α] {k : κ} {v : α}
    {es : List (κ × α)} (h : alookup k es = some v) : sizeOf v < sizeOf es := by
  induction es with
  | nil => simp [alookup] at h
  | cons e rest ih =>
    obtain ⟨k', v'⟩ := e
    simp only [alookup] at h
    by_cases hk : k = k'
    · rw [if_pos hk] at h
      have hv : v' = v := by simpa using h
      subst hv
      simp
      omega
    · rw [if_neg hk] at h
      have := ih h
      simp
      omega

theorem msgGet_sizeOf {m : Msg} {n : GoStr} {v : Val} (h : msgGet m n = some v) :
    sizeOf v < sizeOf m := by
  obtain ⟨t, fs, u⟩ := m
  have : sizeOf v < sizeOf fs := alookup_sizeOf (h := h)
  simp
  omega

theorem asMsg_sizeOf {v : Val} {m : Msg} (h : v.asMsg = some m) : sizeOf m < sizeOf v := by
  cases v <;> simp [Val.asMsg] at h
  subst h
  simp

theorem asListM_sizeOf {v : Val} : sizeOf v.asListM ≤ sizeOf v := by
  cases v <;> simp [Val.asListM]

theorem asMapM_sizeOf {v : Val} : sizeOf v.asMapM ≤ sizeOf v := by
  cases v <;> simp [Val.asMapM]

/-- Does a key fit a key kind (with the kind's numeric range)? -/
def keyKindMatch (kk : KeyKind) (k : Key) : Bool :=
  match kk, k with
  | .kkString, .kStr _ => true
  | .kkBool, .kBool _ => true
  | .kkInt32, .kInt v => decide (-(2 ^ 31 : Int) ≤ v ∧ v < 2 ^ 31)
  | .kkInt64, .kInt v => decide (-(2 ^ 63 : Int) ≤ v ∧ v < 2 ^ 63)
  | .kkUint32, .kUint v => decide (v < 2 ^ 32)
  | .kkUint64, .kUint v => decide (v < 2 ^ 64)
  | _, _ => false

/-- Strictly ascending association-list keys. -/
def chainSorted {κ α : Type} (lt : κ → κ → Bool) : List (κ × α) → Bool
  | [] => true
  | [_] => true
  | (k, _) :: (k', v') :: rest => lt k k' && chainSorted lt ((k', v') :: rest)

mutual
/-- Well-formedness of a message against the schema: right type, fields
sorted by name, every present field declared with a matching value shape,
containers nonempty. -/
def msgConf (S : Schema) (t : Nat) : Msg → Bool
  | .mk t' fs _ =>
    t' = t && chainSorted strLtB fs && fieldsConf S (S.msgDecl t) fs

def fieldsConf (S : Schema) (ds : MsgDecl) : List (GoStr × Val) → Bool
  | [] => true
  | (n, v) :: rest =>
    (match ds.find? (fun fd => fd.name = n) with
     | some fd => valConf S fd.kind v
     | none => false)
      && fieldsConf S ds rest

def valConf (S : Schema) : FieldKind → Val → Bool
  | .scalarK _, .vScalar _ => true
  | .msgK t, .vMsg m => msgConf S t m
  | .listScalarK _, .vListS xs => !xs.isEmpty
  | .listMsgK t, .vListM ms => !ms.isEmpty && msgsConf S t ms
  | .mapScalarK kk _, .vMapS es =>
    !es.isEmpty && chainSorted keyLtB es && es.all (fun e => keyKindMatch kk e.1)
  | .mapMsgK kk t, .vMapM es =>
    !es.isEmpty && chainSorted keyLtB es && es.all (fun e => keyKindMatch kk e.1)
      && msgKMapConf S t es
  | _, _ => false

def msgsConf (S : Schema) (t : Nat) : List Msg → Bool
  | [] => true
  | m :: rest => msgConf S t m && msgsConf S t rest

def msgKMapConf (S : Schema) (t : Nat) : List (Key × Msg) → Bool
  | [] => true
  | (_, m) :: rest => msgConf S t m && msgKMapConf S t rest
end

mutual
/-- A plain message: no unknown bytes and no present extension fields,
recursively. -/
def msgPlain (S : Schema) : Msg → Bool
  | .mk t fs u => u.isEmpty && fieldsPlain S (S.msgDecl t) fs

def fieldsPlain (S : Schema) (ds : MsgDecl) : List (GoStr × Val) → Bool
  | [] => true
  | (n, v) :: rest =>
    (match ds.find? (fun fd => fd.name = n) with
     | some fd => !fd.isExt && valPlain S fd.kind v
     | none => false)
      && fieldsPlain S ds rest

def valPlain (S : Schema) : FieldKind → Val → Bool
  | .msgK _, .vMsg m => msgPlain S m
  | .listMsgK _, .vListM ms => msgsPlain S ms
  | .mapMsgK _ _, .vMapM es => kmsPlain S es
  | _, _ => true

def msgsPlain (S : Schema) : List Msg → Bool
  | [] => true
  | m :: rest => msgPlain S m && msgsPlain S rest

def kmsPlain (S : Schema) : List (Key × Msg) → Bool
  | [] => true
  | (_, m) :: rest => msgPlain S m && kmsPlain S rest
end

mutual
/-- `settings.copyMessage`: the generic whole-record copy.  It ranges the
present fields of `src`, skipping disallowed extensions, deep-copying
containers and nested messages, and copies unknown bytes only when masking
retains them. -/
def copyMessage (st : Settings) (S : Schema) : Msg → Msg
  | .mk t fs u =>
    .mk t (copyFields st S (S.msgDecl t) fs)
      (if st.maskUnknowns = .retains then u else [])

def copyFields (st : Settings) (S : Schema) (ds : MsgDecl) : List (GoStr × Val) → List (GoStr × Val)
  | [] => []
  | (n, v) :: rest =>
    match ds.find? (fun fd => fd.name = n) with
    | some fd =>
      if allowFd st fd then (n, copyVal st S fd.kind v) :: copyFields st S ds rest
      else copyFields st S ds rest
    | none => (n, v) :: copyFields st S ds rest

/-- `settings.copyList` / `settings.copyMap` special-case messages; byte and
scalar copies are value-equal, so they are the identity here. -/
def copyVal (st : Settings) (S : Schema) : FieldKind → Val → Val
  | .msgK _, .vMsg m => .vMsg (copyMessage st S m)
  | .listMsgK _, .vListM ms => .vListM (copyMsgs st S ms)
  | .mapMsgK _ _, .vMapM es => .vMapM (copyMsgMap st S es)
  | _, v => v

def copyMsgs (st : Settings) (S : Schema) : List Msg → List Msg
  | [] => []
  | m :: rest => copyMessage st S m :: copyMsgs st S rest

def copyMsgMap (st : Settings) (S : Schema) : List (Key × Msg) → List (Key × Msg)
  | [] => []
  | (k, m) :: rest => (k, copyMessage st S m) :: copyMsgMap st S rest
end

/-- `settings.doUpdateUnknowns` (`src` may be an invalid message). -/
def doUpdateUnknowns (st : Settings) (dst : Msg) (src : Option Msg) : Msg :=
  let srcU : List Nat := match src with | some s => s.unknown | none => []
  if st.updateUnknowns = .uAppends ∧ srcU ≠ [] then msgSetUnknown dst (dst.unknown ++ srcU)
  else if st.updateUnknowns = .uReplaces then msgSetUnknown dst srcU
  else dst

def FieldKind.isListK : FieldKind → Bool
  | .listScalarK _ => true
  | .listMsgK _ => true
  | _ => false

/-- The fields returned by `Descriptor().Fields()` (extensions excluded). -/
def nonExtDecls (ds : MsgDecl) : MsgDecl :=
  ds.filter (fun fd => !fd.isExt)

theorem listSizeOf_pos {α : Type} [SizeOf α] (l : List α) : 0 < sizeOf l := by
  cases l with
  | nil => simp
  | cons a l => simp

def mapHasS (es : List (Key × Nat)) (k : Key) : Bool := (alookup k es).isSome

def mapHasM (es : List (Key × Msg)) (k : Key) : Bool := (alookup k es).isSome

/-- Phase 2 of `settings.updateMap` for scalar values: set every source
entry. -/
def setAllS (acc : List (Key × Nat)) : List (Key × Nat) → List (Key × Nat)
  | [] => acc
  | (k, v) :: rest => setAllS (ainsert keyLtB k v acc) rest

mutual
/-- `settings.updateMessage`: the generic whole-record update.  Iterates
every (non-extension) schema field of the destination's type, then applies
the unknown-bytes policy.  `none` stands for an absent/invalid source. -/
def updateMessage (st : Settings) (S : Schema) (dst : Msg) (src : Option Msg) : Msg :=
  doUpdateUnknowns st (updateFieldsGo st S (nonExtDecls (S.msgDecl dst.ty)) dst src) src
termination_by (sizeOf src, 3, 0)

def updateFieldsGo (st : Settings) (S : Schema) : MsgDecl → Msg → Option Msg → Msg
  | [], dst, _ => dst
  | fd :: rest, dst, src => updateFieldsGo st S rest (updateField st S dst src fd) src
termination_by ds _ src => (sizeOf src, 2, ds.length)

/-- `settings.updateField`: clear fields absent from the source (except
lists under the append policy), otherwise set or recurse per kind. -/
def updateField (st : Settings) (S : Schema) (dst : Msg) (src : Option Msg) (fd : FieldDecl) : Msg :=
  if !allowFd st fd then dst
  else
    match hv : src.bind (fun s => msgGet s fd.name) with
    | none =>
      if fd.kind.isListK && st.updateRepeated = .rAppends then dst
      else msgClearF dst fd.name
    | some v =>
      have hvs : sizeOf v < sizeOf src := by
        cases src with
        | none => simp at hv
        | some s =>
          simp only [Option.some_bind] at hv
          have h1 := msgGet_sizeOf hv
          simp
          omega
      match fd.kind with
      | .scalarK _ => msgSet dst fd.name v
      | .msgK t =>
        let dstm :=
          match (msgGet dst fd.name).bind Val.asMsg with
          | some dm => dm
          | none => Msg.mk t [] []
        match hm : v.asMsg with
        | some sm =>
          have hlt : 1 + sizeOf sm < sizeOf src := by
            have h2 := asMsg_sizeOf hm
            omega
          msgSet dst fd.name (.vMsg (updateMessage st S dstm (some sm)))
        | none => dst
      | .listScalarK _ =>
        let dl := (((msgGet dst fd.name).getD (.vListS [])).asListS)
        let sl := v.asListS
        msgSet dst fd.name (.vListS (if st.updateRepeated = .rReplaces then sl else dl ++ sl))
      | .listMsgK t =>
        have hlt : sizeOf v.asListM < sizeOf src := by
          have h2 := asListM_sizeOf (v := v)
          omega
        let dl := (((msgGet dst fd.name).getD (.vListM [])).asListM)
        let sl := updateMsgs st S t v.asListM
        msgSet dst fd.name (.vListM (if st.updateRepeated = .rReplaces then sl else dl ++ sl))
      | .mapScalarK _ _ =>
        let dm := (((msgGet dst fd.name).getD (.vMapS [])).asMapS)
        let d0 := dm.filter (fun e => mapHasS v.asMapS e.1)
        msgSet dst fd.name (.vMapS (setAllS d0 v.asMapS))
      | .mapMsgK _ t =>
        have hlt : sizeOf v.asMapM < sizeOf src := by
          have h2 := asMapM_sizeOf (v := v)
          omega
        let dm := (((msgGet dst fd.name).getD (.vMapM [])).asMapM)
        let d0 := dm.filter (fun e => mapHasM v.asMapM e.1)
        msgSet dst fd.name (.vMapM (updateMsgMapGo st S t d0 v.asMapM))
termination_by (sizeOf src, 1, 0)

/-- `settings.updateList` for message elements: each source element is
rebuilt through `updateMessage` into a fresh element. -/
def updateMsgs (st : Settings) (S : Schema) (t : Nat) : List Msg → List Msg
  | [] => []
  | e :: rest =>
    have _hr : 0 < sizeOf rest := listSizeOf_pos rest
    updateMessage st S (Msg.mk t [] []) (some e) :: updateMsgs st S t rest
termination_by ms => (sizeOf ms, 3, 0)

/-- Phase 2 of `settings.updateMap` for message values: each source entry is
rebuilt through `updateMessage` into a fresh value. -/
def updateMsgMapGo (st : Settings) (S : Schema) (t : Nat) (acc : List (Key × Msg)) :
    List (Key × Msg) → List (Key × Msg)
  | [] => acc
  | (k, m) :: rest =>
    have _hr : 0 < sizeOf rest := listSizeOf_pos rest
    updateMsgMapGo st S t (ainsert keyLtB k (updateMessage st S (Msg.mk t [] []) (some m)) acc) rest
termination_by es => (sizeOf es, 3, 0)
end

mutual
/-- A field mask: the six variants dispatched by `newFieldMask`
(scalar, scalar list, message list, scalar map, message map, message). -/
inductive FieldMask : Type where
  | fmScalar
  | fmScalarList
  | fmMsgList (elemTy : Nat) (inner : Option MsgMask)
  | fmScalarMap (kk : KeyKind) (keys : Option (List Key))
  | fmMsgMap (kk : KeyKind) (valTy : Nat) (wild : Option MsgMask)
      (keyed : Option (List (Key × MsgMask)))
  | fmMsg (inner : MsgMask)

/-- `msgMask`: a record mask; `none` fields is the complete sentinel.  A Go
map models as a sorted association list (`paths()` sorts names anyway). -/
inductive MsgMask : Type where
  | mk (ty : Nat) (fields : Option (List (GoStr × FieldMask)))
end

def MsgMask.ty : MsgMask → Nat
  | .mk t _ => t

def MsgMask.fieldsM : MsgMask → Option (List (GoStr × FieldMask))
  | .mk _ f => f

/-- `msgMask.complete`. -/
def msgMaskComplete (mm : MsgMask) : Bool := mm.fieldsM.isNone

/-- `fieldMask.complete` per variant. -/
def fieldMaskComplete : FieldMask → Bool
  | .fmScalar => true
  | .fmScalarList => true
  | .fmMsgList _ inner => inner.isNone
  | .fmScalarMap _ keys => keys.isNone
  | .fmMsgMap _ _ wild keyed => keyed.isNone && wild.isNone
  | .fmMsg inner => msgMaskComplete inner

/-- `newFieldMask`: the fresh mask node for a field's kind. -/
def mkFieldMask : FieldKind → FieldMask
  | .scalarK _ => .fmScalar
  | .msgK t => .fmMsg (.mk t none)
  | .listScalarK _ => .fmScalarList
  | .listMsgK t => .fmMsgList t none
  | .mapScalarK kk _ => .fmScalarMap kk none
  | .mapMsgK kk t => .fmMsgMap kk t none none

/-- `msgMapFieldMask.lookupMask`: keyed submask first, else wild submask. -/
def mapLookupMask (keyed : Option (List (Key × MsgMask))) (wild : Option MsgMask) (k : Key) :
    Option MsgMask :=
  match keyed with
  | some km =>
    match alookup k km with
    | some m => some m
    | none => wild
  | none => wild

theorem alookupM_sizeOf {κ : Type} [DecidableEq κ] [SizeOf κ] {k : κ} {v : MsgMask}
    {es : List (κ × MsgMask)} (h : alookup k es = some v) : sizeOf v < sizeOf es :=
  alookup_sizeOf (h := h)

theorem keyKind_sizeOf_pos (kk : KeyKind) : 0 < sizeOf kk := by
  cases kk <;> simp

theorem mapLookupMask_sizeOf {keyed : Option (List (Key × MsgMask))} {wild : Option MsgMask}
    {k : Key} {mmk : MsgMask} (h : mapLookupMask keyed wild k = some mmk) :
    sizeOf mmk ≤ sizeOf wild + sizeOf keyed := by
  cases keyed with
  | none =>
    simp [mapLookupMask] at h
    cases wild with
    | none => simp at h
    | some w =>
      simp at h
      subst h
      simp
      omega
  | some km =>
    cases halk : alookup k km with
    | some m' =>
      simp [mapLookupMask, halk] at h
      subst h
      have := alookupM_sizeOf halk
      simp
      omega
    | none =>
      simp [mapLookupMask, halk] at h
      cases wild with
      | none => simp at h
      | some w =>
        simp at h
        subst h
        simp
        omega

mutual
/-- `msgMask.paths`: sorted field names, each contributing its child's paths
(or the bare name when the child reports none). -/
def msgMaskPaths : MsgMask → List GoStr
  | .mk _ none => []
  | .mk _ (some fs) => pathsOverNames fs (sortByB strLtB (fs.map Prod.fst))
termination_by mm => (sizeOf mm, 0)

def pathsOverNames (fs : List (GoStr × FieldMask)) : List GoStr → List GoStr
  | [] => []
  | n :: rest =>
    (match h : alookup n fs with
     | some fm =>
       have _h := alookup_sizeOf h
       let subs := fieldMaskPaths fm
       if subs.isEmpty then [n] else subs.map (joinPath n)
     | none => [])
      ++ pathsOverNames fs rest
termination_by ns => (sizeOf fs, ns.length)

/-- `fieldMask.paths` per variant; for message maps, wild paths prefixed with
`*` come first, then sorted keyed paths with wild-implied subpaths
deduplicated. -/
def fieldMaskPaths : FieldMask → List GoStr
  | .fmScalar => []
  | .fmScalarList => []
  | .fmMsgList _ none => []
  | .fmMsgList _ (some mm) => (msgMaskPaths mm).map (joinPath ['*'])
  | .fmScalarMap _ none => []
  | .fmScalarMap _ (some ks) => (sortByB keyLtB ks).map (fun k => maybeQuote (keyFormat k))
  | .fmMsgMap _ _ wild keyed =>
    let wildSubs := match hw : wild with
      | some w =>
        have _h : sizeOf w < sizeOf wild := by rw [hw]; simp only [Option.some.sizeOf_spec]; omega
        msgMaskPaths w
      | none => []
    let base := wildSubs.map (joinPath ['*'])
    match hk : keyed with
    | none => base
    | some km =>
      have _h : sizeOf km < sizeOf keyed := by rw [hk]; simp only [Option.some.sizeOf_spec]; omega
      base ++ keyedPathsGo wildSubs km (sortByB keyLtB (km.map Prod.fst))
  | .fmMsg inner => msgMaskPaths inner
termination_by fm => (sizeOf fm, 0)

def keyedPathsGo (wildSubs : List GoStr) (km : List (Key × MsgMask)) : List Key → List GoStr
  | [] => []
  | k :: rest =>
    (match h : alookup k km with
     | some m =>
       have _h := alookupM_sizeOf h
       let name := maybeQuote (keyFormat k)
       let subs := msgMaskPaths m
       if subs.isEmpty then [name]
       else (subs.filter (fun s => !wildSubs.contains s)).map (joinPath name)
     | none => [])
      ++ keyedPathsGo wildSubs km rest
termination_by ks => (sizeOf km, ks.length)
end

mutual
/-- `msgMask.mask`: no-op when complete; otherwise range the present fields,
clearing those without a matching allowed child mask, recursing into the
rest, and dropping unknown bytes unless the settings retain them. -/
def msgMaskMask (st : Settings) (S : Schema) (mm : MsgMask) (m : Msg) : Msg :=
  match hmm : mm.fieldsM with
  | none => m
  | some fsm =>
    have _h : sizeOf fsm < sizeOf mm := by
      cases mm with
      | mk t f =>
        simp [MsgMask.fieldsM] at hmm
        subst hmm
        simp
        omega
    let fs' := maskRangeFields st S fsm (S.msgDecl m.ty) m.fields
    let m' := Msg.mk m.ty fs' m.unknown
    if st.maskUnknowns ≠ .retains then msgSetUnknown m' [] else m'
termination_by (sizeOf mm, 0)

def maskRangeFields (st : Settings) (S : Schema) (fsm : List (GoStr × FieldMask)) (ds : MsgDecl) :
    List (GoStr × Val) → List (GoStr × Val)
  | [] => []
  | (n, v) :: rest =>
    (match h : alookup n fsm with
     | some fm =>
       have _h := alookup_sizeOf h
       let allowB := match ds.find? (fun fd => fd.name = n) with
         | some fd => allowFd st fd
         | none => true
       if allowB then
         let v' := fieldMaskMask st S fm v
         if v'.isEmptyContainer then [] else [(n, v')]
       else []
     | none => [])
      ++ maskRangeFields st S fsm ds rest
termination_by fs => (sizeOf fsm, 1 + sizeOf fs)

/-- Per-variant in-place masking of a field value.  A value whose shape does
not match the mask variant is returned unchanged (unreachable for records
conforming to the mask's schema). -/
def fieldMaskMask (st : Settings) (S : Schema) : FieldMask → Val → Val
  | .fmScalar, v => v
  | .fmScalarList, v => v
  | .fmMsgList _ none, v => v
  | .fmMsgList _ (some mm), v =>
    match v with
    | .vListM ms => .vListM (maskMsgs st S mm ms)
    | _ => v
  | .fmScalarMap _ none, v => v
  | .fmScalarMap _ (some ks), v =>
    match v with
    | .vMapS es => .vMapS (es.filter (fun e => ks.contains e.1))
    | _ => v
  | .fmMsgMap kk _t wild keyed, v =>
    if keyed.isNone && wild.isNone then v
    else
      have _h : 0 < sizeOf kk := keyKind_sizeOf_pos kk
      match v with
      | .vMapM es => .vMapM (maskMsgMapGo st S wild keyed es)
      | _ => v
  | .fmMsg inner, v =>
    match v with
    | .vMsg m => .vMsg (msgMaskMask st S inner m)
    | _ => v
termination_by fm _ => (sizeOf fm, 0)

def maskMsgs (st : Settings) (S : Schema) (mm : MsgMask) : List Msg → List Msg
  | [] => []
  | e :: rest => msgMaskMask st S mm e :: maskMsgs st S mm rest
termination_by ms => (sizeOf mm, 1 + sizeOf ms)

def maskMsgMapGo (st : Settings) (S : Schema) (wild : Option MsgMask)
    (keyed : Option (List (Key × MsgMask))) : List (Key × Msg) → List (Key × Msg)
  | [] => []
  | (k, m) :: rest =>
    (match h : mapLookupMask keyed wild k with
     | some mmk =>
       have _h : sizeOf mmk ≤ sizeOf wild + sizeOf keyed := mapLookupMask_sizeOf h
       [(k, msgMaskMask st S mmk m)]
     | none => [])
      ++ maskMsgMapGo st S wild keyed rest
termination_by es => (1 + sizeOf wild + sizeOf keyed, 1 + sizeOf es)
end

mutual
/-- `msgMask.clone`: a masked copy into a fresh message; the complete branch
delegates to the generic `copyMessage`. -/
def msgMaskClone (st : Settings) (S : Schema) (mm : MsgMask) (m : Msg) : Msg :=
  match hmm : mm.fieldsM with
  | none => copyMessage st S m
  | some fsm =>
    have _h : sizeOf fsm < sizeOf mm := by
      cases mm with
      | mk t f =>
        simp [MsgMask.fieldsM] at hmm
        subst hmm
        simp
        omega
    let out1 := cloneRangeFields st S fsm (S.msgDecl m.ty) m.fields (Msg.mk m.ty [] [])
    if st.maskUnknowns = .retains then msgSetUnknown out1 m.unknown else out1
termination_by (sizeOf mm, 0)

def cloneRangeFields (st : Settings) (S : Schema) (fsm : List (GoStr × FieldMask)) (ds : MsgDecl) :
    List (GoStr × Val) → Msg → Msg
  | [], out => out
  | (n, v) :: rest, out =>
    let out' :=
      match h : alookup n fsm with
      | some fm =>
        have _h := alookup_sizeOf h
        let allowB := match ds.find? (fun fd => fd.name = n) with
          | some fd => allowFd st fd
          | none => true
        if allowB then msgSet out n (fieldMaskClone st S fm v) else out
      | none => out
    cloneRangeFields st S fsm ds rest out'
termination_by fs _ => (sizeOf fsm, 1 + sizeOf fs)

/-- Per-variant cloning of a field value; complete branches use the generic
copy routines (the identity on scalar payloads, recursive copies on
messages).  Shape mismatches return the value (unreachable under
conformance). -/
def fieldMaskClone (st : Settings) (S : Schema) : FieldMask → Val → Val
  | .fmScalar, v => v
  | .fmScalarList, v => v
  | .fmMsgList _ none, v =>
    match v with
    | .vListM ms => .vListM (copyMsgs st S ms)
    | _ => v
  | .fmMsgList _ (some mm), v =>
    match v with
    | .vListM ms => .vListM (cloneMsgs st S mm ms)
    | _ => v
  | .fmScalarMap _ none, v => v
  | .fmScalarMap _ (some ks), v =>
    match v with
    | .vMapS es => .vMapS (es.filter (fun e => ks.contains e.1))
    | _ => v
  | .fmMsgMap _ _ none none, v =>
    match v with
    | .vMapM es => .vMapM (copyMsgMap st S es)
    | _ => v
  | .fmMsgMap kk _t wild keyed, v =>
    have _h : 0 < sizeOf kk := keyKind_sizeOf_pos kk
    match v with
    | .vMapM es => .vMapM (cloneMsgMapGo st S wild keyed es)
    | _ => v
  | .fmMsg inner, v =>
    match v with
    | .vMsg m => .vMsg (msgMaskClone st S inner m)
    | _ => v
termination_by fm _ => (sizeOf fm, 0)

def cloneMsgs (st : Settings) (S : Schema) (mm : MsgMask) : List Msg → List Msg
  | [] => []
  | e :: rest => msgMaskClone st S mm e :: cloneMsgs st S mm rest
termination_by ms => (sizeOf mm, 1 + sizeOf ms)

def cloneMsgMapGo (st : Settings) (S : Schema) (wild : Option MsgMask)
    (keyed : Option (List (Key × MsgMask))) : List (Key × Msg) → List (Key × Msg)
  | [] => []
  | (k, m) :: rest =>
    (match h : mapLookupMask keyed wild k with
     | some mmk =>
       have _h : sizeOf mmk ≤ sizeOf wild + sizeOf keyed := mapLookupMask_sizeOf h
       [(k, msgMaskClone st S mmk m)]
     | none => [])
      ++ cloneMsgMapGo st S wild keyed rest
termination_by es => (1 + sizeOf wild + sizeOf keyed, 1 + sizeOf es)
end

def mapHasMaskK (km : List (Key × MsgMask)) (k : Key) : Bool := (alookup k km).isSome

/-- Phase 2 of `scalarMapFieldMask.update`: set source entries whose key has
a keyed mask. -/
def setAllSelS (ks : List Key) (acc : List (Key × Nat)) : List (Key × Nat) → List (Key × Nat)
  | [] => acc
  | (k, n) :: rest => setAllSelS ks (if ks.contains k then ainsert keyLtB k n acc else acc) rest

mutual
/-- `msgMask.update`: the complete branch delegates to the generic
`updateMessage`; otherwise update each field named by the mask (resolving
its descriptor through the settings' lookup) and apply the unknown policy. -/
def msgMaskUpdate (st : Settings) (S : Schema) (mm : MsgMask) (dst : Msg) (src : Option Msg) : Msg :=
  match hmm : mm.fieldsM with
  | none => updateMessage st S dst src
  | some fsm =>
    have _h : sizeOf fsm < sizeOf mm := by
      cases mm with
      | mk t f =>
        simp [MsgMask.fieldsM] at hmm
        subst hmm
        simp
        omega
    doUpdateUnknowns st (updateMaskFields st S mm.ty fsm dst src) src
termination_by (sizeOf mm, 0)

def updateMaskFields (st : Settings) (S : Schema) (t : Nat) :
    List (GoStr × FieldMask) → Msg → Option Msg → Msg
  | [], dst, _ => dst
  | (name, fm) :: fsRest, dst, src =>
    let dst' :=
      match lookupField st (S.msgDecl t) name with
      | some (_, fd) => fieldMaskUpdate st S fm fd dst (src.bind (fun s => msgGet s fd.name))
      | none => dst
    updateMaskFields st S t fsRest dst' src
termination_by fs _ _ => (sizeOf fs, 0)

/-- Per-variant `fieldMask.update(parent, value, exists)`; `none` models an
absent or invalid source value. -/
def fieldMaskUpdate (st : Settings) (S : Schema) (fm : FieldMask) (fd : FieldDecl) (dst : Msg)
    (v? : Option Val) : Msg :=
  match fm with
  | .fmScalar =>
    match v? with
    | none => msgClearF dst fd.name
    | some v => msgSet dst fd.name v
  | .fmMsg inner =>
    match v? with
    | none => msgClearF dst fd.name
    | some v =>
      match v.asMsg with
      | some sm =>
        let dstm := match (msgGet dst fd.name).bind Val.asMsg with
          | some dm => dm
          | none => Msg.mk inner.ty [] []
        msgSet dst fd.name (.vMsg (msgMaskUpdate st S inner dstm (some sm)))
      | none => dst
  | .fmScalarList =>
    match v? with
    | none => if st.updateRepeated = .rReplaces then msgClearF dst fd.name else dst
    | some v =>
      match st.updateRepeated with
      | .rAppends =>
        let dl := ((msgGet dst fd.name).getD (.vListS [])).asListS
        msgSet dst fd.name (.vListS (dl ++ v.asListS))
      | .rReplaces => msgSet dst fd.name v
  | .fmMsgList _ none =>
    match v? with
    | none => if st.updateRepeated = .rReplaces then msgClearF dst fd.name else dst
    | some v =>
      match st.updateRepeated with
      | .rAppends =>
        let dl := ((msgGet dst fd.name).getD (.vListM [])).asListM
        msgSet dst fd.name (.vListM (dl ++ v.asListM))
      | .rReplaces => msgSet dst fd.name v
  | .fmMsgList _ (some mm) =>
    match v? with
    | none => if st.updateRepeated = .rReplaces then msgClearF dst fd.name else dst
    | some v =>
      let dl := if st.updateRepeated = .rReplaces then []
        else ((msgGet dst fd.name).getD (.vListM [])).asListM
      msgSet dst fd.name (.vListM (dl ++ cloneMsgs st S mm v.asListM))
  | .fmScalarMap _ keys =>
    match v? with
    | none =>
      if !msgHasF dst fd.name then dst
      else
        match keys with
        | none => msgClearF dst fd.name
        | some ks =>
          let dm := ((msgGet dst fd.name).getD (.vMapS [])).asMapS
          msgSet dst fd.name (.vMapS (dm.filter (fun e => !ks.contains e.1)))
    | some v =>
      match keys with
      | none => msgSet dst fd.name v
      | some ks =>
        let dm := ((msgGet dst fd.name).getD (.vMapS [])).asMapS
        let sm := v.asMapS
        let d0 := dm.filter (fun e => !(ks.contains e.1 && !mapHasS sm e.1))
        msgSet dst fd.name (.vMapS (setAllSelS ks d0 sm))
  | .fmMsgMap kk valTy wild keyed =>
    have _hkk : 0 < sizeOf kk := keyKind_sizeOf_pos kk
    match v? with
    | none =>
      if !msgHasF dst fd.name then dst
      else if (keyed.isNone && wild.isNone) || wild.isSome then msgClearF dst fd.name
      else
        let dm := ((msgGet dst fd.name).getD (.vMapM [])).asMapM
        msgSet dst fd.name (.vMapM (dm.filter (fun e => !mapHasMaskK (keyed.getD []) e.1)))
    | some v =>
      if keyed.isNone && wild.isNone then
        let dm := ((msgGet dst fd.name).getD (.vMapM [])).asMapM
        let sm := v.asMapM
        let d0 := dm.filter (fun e => mapHasM sm e.1)
        msgSet dst fd.name (.vMapM (updateMsgMapGo st S valTy d0 sm))
      else
        let dm := ((msgGet dst fd.name).getD (.vMapM [])).asMapM
        let sm := v.asMapM
        let d0 := dm.filter (fun e => !((mapLookupMask keyed wild e.1).isSome && !mapHasM sm e.1))
        msgSet dst fd.name (.vMapM (updateMapMaskedGo st S valTy wild keyed d0 sm))
termination_by (sizeOf fm, 0)

/-- Phase 2 of `msgMapFieldMask.update`: recursively update (creating if
absent) every destination entry whose key matches a submask. -/
def updateMapMaskedGo (st : Settings) (S : Schema) (valTy : Nat) (wild : Option MsgMask)
    (keyed : Option (List (Key × MsgMask))) (acc : List (Key × Msg)) :
    List (Key × Msg) → List (Key × Msg)
  | [] => acc
  | (k, m) :: rest =>
    let acc' :=
      match h : mapLookupMask keyed wild k with
      | some mmk =>
        have _h : sizeOf mmk ≤ sizeOf wild + sizeOf keyed := mapLookupMask_sizeOf h
        let dstm := (alookup k acc).getD (Msg.mk valTy [] [])
        ainsert keyLtB k (msgMaskUpdate st S mmk dstm (some m)) acc
      | none => acc
    updateMapMaskedGo st S valTy wild keyed acc' rest
termination_by es => (1 + sizeOf wild + sizeOf keyed, 1 + sizeOf es)
end

/-- The error classes of construction/append (messages elided). -/
inductive GoErr where
  | syntaxErr
  | unknownField
  | scalarSubpath
  | listPath
  | keyParseErr
deriving DecidableEq, Repr

/-- Outcome of an in-place `init`/`append`: success or error, each carrying
the resulting state (Go mutates in place), a `panicked` marker for the
internal-error panic branches in map.go, or fuel exhaustion (`out` never
occurs with adequate fuel; the Go recursion terminates). -/
inductive ARes (α : Type) where
  | ok (a : α)
  | err (e : GoErr) (a : α)
  | panicked
  | out

/-- `addScalarPath` from scalar.go. -/
def addScalarPath (p : GoStr) : Option GoErr :=
  if p ≠ [] then some .scalarSubpath else none

/-- `scalarListFieldMask.add` from list.go (stateless). -/
def scalarListAdd (p : GoStr) : Option GoErr :=
  if p = [] ∨ p = ['*'] then none
  else
    match nextSegment p with
    | none => some .syntaxErr
    | some (tok, sub) =>
      if tok ≠ ['*'] then some .listPath
      else if sub ≠ [] then some .scalarSubpath
      else none

/-- Sorted-set insert for scalar-map key sets. -/
def insertKeySet (k : Key) : List Key → List Key
  | [] => [k]
  | k' :: rest =>
    if k = k' then k' :: rest
    else if keyLtB k k' then k :: k' :: rest
    else k' :: insertKeySet k rest

/-- `scalarMapFieldMask.add` (with `addWild`/`addKeyed`). -/
def scalarMapAdd (kk : KeyKind) (keys : Option (List Key)) (p : GoStr) :
    ARes (Option (List Key)) :=
  if p = [] ∨ p = ['*'] then .ok none
  else
    match nextSegment p with
    | none => .err .syntaxErr keys
    | some (name, sub) =>
      if name = ['*'] then
        if sub ≠ [] then .err .scalarSubpath keys else .ok none
      else
        match keyParse kk name with
        | none => .err .keyParseErr keys
        | some k =>
          if sub ≠ [] then .err .scalarSubpath keys
          else .ok (some (insertKeySet k (keys.getD [])))

mutual
/-- `msgMask.init`: resolve the leading segment, build and initialize the
field's mask, seed the field table with exactly that entry. -/
def msgMaskInit (st : Settings) (S : Schema) : Nat → MsgMask → GoStr → ARes MsgMask
  | 0, _, _ => .out
  | fuel + 1, mm, path =>
    if path = [] ∨ path = ['*'] then .ok mm
    else
      match nextSegment path with
      | none => .err .syntaxErr mm
      | some (name, sub) =>
        match lookupField st (S.msgDecl mm.ty) name with
        | none => .err .unknownField mm
        | some (key, fd) =>
          match fieldMaskInit st S fuel (mkFieldMask fd.kind) sub with
          | .ok fld => .ok (.mk mm.ty (some [(key, fld)]))
          | .err e _ => .err e mm
          | .panicked => .panicked
          | .out => .out
termination_by fuel _ _ => (fuel, 0, 0)

/-- `msgMask.append`: empty/`*` collapses to complete; a complete mask
validates only the field name; otherwise extend the existing child mask or
create and initialize a new one. -/
def msgMaskAppend (st : Settings) (S : Schema) : Nat → MsgMask → GoStr → ARes MsgMask
  | 0, _, _ => .out
  | fuel + 1, mm, path =>
    if path = [] ∨ path = ['*'] then .ok (.mk mm.ty none)
    else
      match nextSegment path with
      | none => .err .syntaxErr mm
      | some (name, sub) =>
        match lookupField st (S.msgDecl mm.ty) name with
        | none => .err .unknownField mm
        | some (key, fd) =>
          match mm.fieldsM with
          | none => .ok mm
          | some fs =>
            match alookup key fs with
            | some fld =>
              match fieldMaskAppend st S fuel fld sub with
              | .ok fld' => .ok (.mk mm.ty (some (ainsert strLtB key fld' fs)))
              | .err e fld' => .err e (.mk mm.ty (some (ainsert strLtB key fld' fs)))
              | .panicked => .panicked
              | .out => .out
            | none =>
              match fieldMaskInit st S fuel (mkFieldMask fd.kind) sub with
              | .ok fld => .ok (.mk mm.ty (some (ainsert strLtB key fld fs)))
              | .err e _ => .err e mm
              | .panicked => .panicked
              | .out => .out
termination_by fuel _ _ => (fuel, 0, 0)

/-- `fieldMask.init` dispatch over the variants (list.go, map.go,
message.go, scalar.go). -/
def fieldMaskInit (st : Settings) (S : Schema) : Nat → FieldMask → GoStr → ARes FieldMask
  | _fuel, .fmScalar, p =>
    match addScalarPath p with
    | none => .ok .fmScalar
    | some e => .err e .fmScalar
  | _fuel, .fmScalarList, p =>
    match scalarListAdd p with
    | none => .ok .fmScalarList
    | some e => .err e .fmScalarList
  | fuel, .fmMsgList t inner, p =>
    if p = [] ∨ p = ['*'] then .ok (.fmMsgList t none)
    else
      match nextSegment p with
      | none => .err .syntaxErr (.fmMsgList t inner)
      | some (tok, sub) =>
        if tok ≠ ['*'] then .err .listPath (.fmMsgList t inner)
        else
          match msgMaskInit st S fuel (.mk t none) sub with
          | .ok vm => .ok (.fmMsgList t (some vm))
          | .err e _ => .err e (.fmMsgList t inner)
          | .panicked => .panicked
          | .out => .out
  | _fuel, .fmScalarMap kk keys, p =>
    match scalarMapAdd kk keys p with
    | .ok keys' => .ok (.fmScalarMap kk keys')
    | .err e keys' => .err e (.fmScalarMap kk keys')
    | .panicked => .panicked
    | .out => .out
  | fuel, .fmMsgMap kk t wild keyed, p => msgMapAdd st S fuel kk t wild keyed p
  | fuel, .fmMsg inner, p =>
    match msgMaskInit st S fuel inner p with
    | .ok mm => .ok (.fmMsg mm)
    | .err e mm => .err e (.fmMsg mm)
    | .panicked => .panicked
    | .out => .out
termination_by fuel _ _ => (fuel, 4, 0)

/-- `fieldMask.append` dispatch; map and message-list masks that are already
complete absorb any further path for the field. -/
def fieldMaskAppend (st : Settings) (S : Schema) : Nat → FieldMask → GoStr → ARes FieldMask
  | _fuel, .fmScalar, p =>
    match addScalarPath p with
    | none => .ok .fmScalar
    | some e => .err e .fmScalar
  | _fuel, .fmScalarList, p =>
    match scalarListAdd p with
    | none => .ok .fmScalarList
    | some e => .err e .fmScalarList
  | fuel, .fmMsgList t inner, p =>
    if p = [] ∨ p = ['*'] then .ok (.fmMsgList t none)
    else
      match nextSegment p with
      | none => .err .syntaxErr (.fmMsgList t inner)
      | some (tok, sub) =>
        if tok ≠ ['*'] then .err .listPath (.fmMsgList t inner)
        else
          match inner with
          | none => .ok (.fmMsgList t none)
          | some mm =>
            match msgMaskAppend st S fuel mm sub with
            | .ok mm' => .ok (.fmMsgList t (some mm'))
            | .err e mm' => .err e (.fmMsgList t (some mm'))
            | .panicked => .panicked
            | .out => .out
  | _fuel, .fmScalarMap kk keys, p =>
    if keys.isNone then .ok (.fmScalarMap kk keys)
    else
      match scalarMapAdd kk keys p with
      | .ok keys' => .ok (.fmScalarMap kk keys')
      | .err e keys' => .err e (.fmScalarMap kk keys')
      | .panicked => .panicked
      | .out => .out
  | fuel, .fmMsgMap kk t wild keyed, p =>
    if keyed.isNone && wild.isNone then .ok (.fmMsgMap kk t wild keyed)
    else msgMapAdd st S fuel kk t wild keyed p
  | fuel, .fmMsg inner, p =>
    match msgMaskAppend st S fuel inner p with
    | .ok mm => .ok (.fmMsg mm)
    | .err e mm => .err e (.fmMsg mm)
    | .panicked => .panicked
    | .out => .out
termination_by fuel _ _ => (fuel, 4, 0)

/-- `msgMapFieldMask.add`: bare/`*` collapses, `*`-led paths extend the wild
submask, key-led paths extend a keyed submask. -/
def msgMapAdd (st : Settings) (S : Schema) (fuel : Nat) (kk : KeyKind) (t : Nat)
    (wild : Option MsgMask) (keyed : Option (List (Key × MsgMask))) (p : GoStr) : ARes FieldMask :=
  if p = [] ∨ p = ['*'] then .ok (.fmMsgMap kk t none none)
  else
    match nextSegment p with
    | none => .err .syntaxErr (.fmMsgMap kk t wild keyed)
    | some (name, sub) =>
      if name = ['*'] then msgMapAddWild st S fuel kk t wild keyed sub
      else msgMapAddKeyed st S fuel kk t wild keyed name sub
termination_by (fuel, 3, 0)

/-- `msgMapFieldMask.addWild`: empty subpath collapses to complete;
otherwise establish or extend the wild submask, then propagate the same
append to every keyed submask — a failure there is the internal-error
panic. -/
def msgMapAddWild (st : Settings) (S : Schema) (fuel : Nat) (kk : KeyKind) (t : Nat)
    (wild : Option MsgMask) (keyed : Option (List (Key × MsgMask))) (sub : GoStr) :
    ARes FieldMask :=
  if sub = [] then .ok (.fmMsgMap kk t none none)
  else
    match wild with
    | none =>
      match msgMaskInit st S fuel (.mk t none) sub with
      | .ok w' =>
        match keyed with
        | none => .ok (.fmMsgMap kk t (some w') none)
        | some km =>
          match propagateAll st S fuel sub km with
          | .ok km' => .ok (.fmMsgMap kk t (some w') (some km'))
          | .err _ _ => .panicked
          | .panicked => .panicked
          | .out => .out
      | .err e _ => .err e (.fmMsgMap kk t wild keyed)
      | .panicked => .panicked
      | .out => .out
    | some w =>
      match msgMaskAppend st S fuel w sub with
      | .ok w' =>
        match keyed with
        | none => .ok (.fmMsgMap kk t (some w') none)
        | some km =>
          match propagateAll st S fuel sub km with
          | .ok km' => .ok (.fmMsgMap kk t (some w') (some km'))
          | .err _ _ => .panicked
          | .panicked => .panicked
          | .out => .out
      | .err e w' => .err e (.fmMsgMap kk t (some w') keyed)
      | .panicked => .panicked
      | .out => .out
termination_by (fuel, 2, 0)

/-- The propagation loop of `addWild`: echo the subpath into every keyed
submask; an append error there panics ("internal error: successful wild
mask append failed on keyed mask"). -/
def propagateAll (st : Settings) (S : Schema) (fuel : Nat) (sub : GoStr) :
    List (Key × MsgMask) → ARes (List (Key × MsgMask))
  | [] => .ok []
  | (k, m) :: rest =>
    match msgMaskAppend st S fuel m sub with
    | .ok m' =>
      match propagateAll st S fuel sub rest with
      | .ok rest' => .ok ((k, m') :: rest')
      | .err e r => .err e r
      | .panicked => .panicked
      | .out => .out
    | .err _ _ => .panicked
    | .panicked => .panicked
    | .out => .out
termination_by km => (fuel, 1, km.length)

/-- `msgMapFieldMask.addKeyed`: parse the key; extend an existing keyed
submask, or initialize a fresh one and seed it with every path of the wild
submask — a failure while seeding is the internal-error panic. -/
def msgMapAddKeyed (st : Settings) (S : Schema) (fuel : Nat) (kk : KeyKind) (t : Nat)
    (wild : Option MsgMask) (keyed : Option (List (Key × MsgMask))) (key : GoStr) (sub : GoStr) :
    ARes FieldMask :=
  match keyParse kk key with
  | none => .err .keyParseErr (.fmMsgMap kk t wild keyed)
  | some k =>
    match alookup k (keyed.getD []) with
    | some m =>
      match msgMaskAppend st S fuel m sub with
      | .ok m' => .ok (.fmMsgMap kk t wild (some (ainsert keyLtB k m' (keyed.getD []))))
      | .err e m' => .err e (.fmMsgMap kk t wild (some (ainsert keyLtB k m' (keyed.getD []))))
      | .panicked => .panicked
      | .out => .out
    | none =>
      match msgMaskInit st S fuel (.mk t none) sub with
      | .err e _ => .err e (.fmMsgMap kk t wild keyed)
      | .panicked => .panicked
      | .out => .out
      | .ok m0 =>
        match wild with
        | none => .ok (.fmMsgMap kk t wild (some (ainsert keyLtB k m0 (keyed.getD []))))
        | some w =>
          match seedAll st S fuel m0 (msgMaskPaths w) with
          | .ok m1 => .ok (.fmMsgMap kk t wild (some (ainsert keyLtB k m1 (keyed.getD []))))
          | .err _ _ => .panicked
          | .panicked => .panicked
          | .out => .out
termination_by (fuel, 2, 0)

/-- The seeding loop of `addKeyed`: append every current wild path to the
fresh keyed submask; an error panics. -/
def seedAll (st : Settings) (S : Schema) (fuel : Nat) (m : MsgMask) :
    List GoStr → ARes MsgMask
  | [] => .ok m
  | q :: rest =>
    match msgMaskAppend st S fuel m q with
    | .ok m' => seedAll st S fuel m' rest
    | .err _ _ => .panicked
    | .panicked => .panicked
    | .out => .out
termination_by qs => (fuel, 1, qs.length)
end

/-- The loop of `New`: append each remaining path. -/
def newLoop (st : Settings) (S : Schema) (fuel : Nat) (mm : MsgMask) :
    List GoStr → ARes MsgMask
  | [] => .ok mm
  | p :: rest =>
    match msgMaskAppend st S fuel mm p with
    | .ok mm' => newLoop st S fuel mm' rest
    | .err e mm' => .err e mm'
    | .panicked => .panicked
    | .out => .out

/-- `New[T](paths, options)`: the nil/empty path list yields the complete
mask; otherwise init the first path and append the rest.  (Construction
failures return no usable mask; the state in `err` is internal.) -/
def fmNew (st : Settings) (S : Schema) (rootTy : Nat) (fuel : Nat) (paths : List GoStr) :
    ARes MsgMask :=
  match paths with
  | [] => .ok (.mk rootTy none)
  | p :: rest =>
    match msgMaskInit st S fuel (.mk rootTy none) p with
    | .ok mm => newLoop st S fuel mm rest
    | .err e mm => .err e mm
    | .panicked => .panicked
    | .out => .out

/-- The loop of `Parse`: `nextPath` then init (first) / append (rest). -/
def parseLoop (st : Settings) (S : Schema) : Nat → Nat → MsgMask → Bool → GoStr → ARes MsgMask
  | 0, _, _, _, _ => .out
  | pfuel + 1, fuel, mm, first, s =>
    match nextPath s with
    | none => .err .syntaxErr mm
    | some (path, rest) =>
      match (if first then msgMaskInit st S fuel mm path else msgMaskAppend st S fuel mm path) with
      | .ok mm' =>
        if rest = [] then .ok mm'
        else parseLoop st S pfuel fuel mm' false rest
      | .err e mm' => .err e mm'
      | .panicked => .panicked
      | .out => .out

/-- `Parse[T](paths, options)`. -/
def fmParse (st : Settings) (S : Schema) (rootTy : Nat) (fuel : Nat) (s : GoStr) : ARes MsgMask :=
  parseLoop st S (s.length + 1) fuel (.mk rootTy none) true s

/-- `FieldMask.Append`. -/
def fmAppend (st : Settings) (S : Schema) (fuel : Nat) (mm : MsgMask) (p : GoStr) : ARes MsgMask :=
  msgMaskAppend st S fuel mm p

/-- `FieldMask.Paths`: the simplified paths, or `["*"]` for a fully
selecting mask. -/
def fmPaths (mm : MsgMask) : List GoStr :=
  let ps := msgMaskPaths mm
  if ps.isEmpty then [['*']] else ps

/-- `FieldMask.Mask`: no-op on an invalid (nil) message. -/
def fmMaskOp (st : Settings) (S : Schema) (mm : MsgMask) : Option Msg → Option Msg
  | none => none
  | some m => some (msgMaskMask st S mm m)

/-- `FieldMask.Clone`: the zero value (nil) on an invalid message. -/
def fmCloneOp (st : Settings) (S : Schema) (mm : MsgMask) : Option Msg → Option Msg
  | none => none
  | some m => some (msgMaskClone st S mm m)

/-- `FieldMask.Update`: no-op on an invalid destination; an invalid source
is passed through to the mask tree (which treats it as all-absent). -/
def fmUpdateOp (st : Settings) (S : Schema) (mm : MsgMask) (dst src : Option Msg) : Option Msg :=
  match dst with
  | none => none
  | some d => some (msgMaskUpdate st S mm d src)

theorem gsStar : gs "*" = ['*'] := rfl

mutual
/-- The generic copy is the identity on well-formed plain records. -/
theorem copyMessage_id (st : Settings) (S : Schema) (t : Nat) :
    ∀ (m : Msg), msgConf S t m = true → msgPlain S m = true → copyMessage st S m = m
  | .mk t' fs u, hc, hp => by
    simp [msgConf] at hc
    simp [msgPlain] at hp
    obtain ⟨⟨ht, _hs⟩, hfc⟩ := hc
    obtain ⟨hu, hfp⟩ := hp
    subst ht
    have hu' : u = [] := by simpa [List.isEmpty_iff] using hu
    subst hu'
    simp [copyMessage, copyFields_id st S (S.msgDecl t') fs hfc hfp]

theorem copyFields_id (st : Settings) (S : Schema) (ds : MsgDecl) :
    ∀ (fs : List (GoStr × Val)), fieldsConf S ds fs = true → fieldsPlain S ds fs = true →
      copyFields st S ds fs = fs
  | [], _, _ => by simp [copyFields]
  | (n, v) :: rest, hc, hp => by
    simp only [fieldsConf, Bool.and_eq_true] at hc
    simp only [fieldsPlain, Bool.and_eq_true] at hp
    obtain ⟨hc1, hc2⟩ := hc
    obtain ⟨hp1, hp2⟩ := hp
    cases hfd : ds.find? (fun fd => fd.name = n) with
    | none => rw [hfd] at hc1; simp at hc1
    | some fd =>
      rw [hfd] at hc1 hp1
      simp at hp1
      obtain ⟨hext, hvp⟩ := hp1
      have hallow : allowFd st fd = true := by simp [allowFd, hext]
      simp [copyFields, hfd, hallow, copyVal_id st S fd.kind v hc1 hvp,
        copyFields_id st S ds rest hc2 hp2]

theorem copyVal_id (st : Settings) (S : Schema) :
    ∀ (k : FieldKind) (v : Val), valConf S k v = true → valPlain S k v = true →
      copyVal st S k v = v
  | .scalarK _, .vScalar _, _, _ => by simp [copyVal]
  | .msgK t, .vMsg m, hc, hp => by
    simp [valConf] at hc
    simp [valPlain] at hp
    simp [copyVal, copyMessage_id st S t m hc hp]
  | .listScalarK _, .vListS _, _, _ => by simp [copyVal]
  | .listMsgK t, .vListM ms, hc, hp => by
    simp [valConf] at hc
    simp [valPlain] at hp
    simp [copyVal, copyMsgs_id st S t ms hc.2 hp]
  | .mapScalarK _ _, .vMapS _, _, _ => by simp [copyVal]
  | .mapMsgK kk t, .vMapM es, hc, hp => by
    simp [valConf] at hc
    simp [valPlain] at hp
    simp [copyVal, copyMsgMap_id st S t es hc.2 hp]

theorem copyMsgs_id (st : Settings) (S : Schema) (t : Nat) :
    ∀ (ms : List Msg), msgsConf S t ms = true → msgsPlain S ms = true →
      copyMsgs st S ms = ms
  | [], _, _ => by simp [copyMsgs]
  | m :: rest, hc, hp => by
    simp only [msgsConf, Bool.and_eq_true] at hc
    simp only [msgsPlain, Bool.and_eq_true] at hp
    simp [copyMsgs, copyMessage_id st S t m hc.1 hp.1, copyMsgs_id st S t rest hc.2 hp.2]

theorem copyMsgMap_id (st : Settings) (S : Schema) (t : Nat) :
    ∀ (es : List (Key × Msg)), msgKMapConf S t es = true → kmsPlain S es = true →
      copyMsgMap st S es = es
  | [], _, _ => by simp [copyMsgMap]
  | (k, m) :: rest, hc, hp => by
    simp only [msgKMapConf, Bool.and_eq_true] at hc
    simp only [kmsPlain, Bool.and_eq_true] at hp
    simp [copyMsgMap, copyMessage_id st S t m hc.1 hp.1, copyMsgMap_id st S t rest hc.2 hp.2]
end

theorem maskComplete_id (st : Settings) (S : Schema) (t : Nat) (m : Msg) :
    msgMaskMask st S (.mk t none) m = m := by
  simp [msgMaskMask, MsgMask.fieldsM]

theorem cloneComplete_copy (st : Settings) (S : Schema) (t : Nat) (m : Msg) :
    msgMaskClone st S (.mk t none) m = copyMessage st S m := by
  simp [msgMaskClone, MsgMask.fieldsM]

theorem updateComplete_update (st : Settings) (S : Schema) (t : Nat) (d : Msg) (src : Option Msg) :
    msgMaskUpdate st S (.mk t none) d src = updateMessage st S d src := by
  simp [msgMaskUpdate, MsgMask.fieldsM]

theorem parse_star (st : Settings) (S : Schema) (t fuel : Nat) :
    fmParse st S t (fuel + 1) (gs "*") = .ok (.mk t none) := by
  simp [fmParse, parseLoop, nextPath, nextPathAux, nextToken, gs, msgMaskInit]

/-- C2 (amended) — for every settings combination: the wildcard-only mask
`*` parses to the same complete mask that the empty path list yields
("nil mask ≡ complete mask"); `Mask` with it is the identity transform on
every record; `Clone` and `Update` with it produce exactly the generic
whole-record copy/update routine's outputs; and on well-formed records
carrying no unknown bytes and no extension fields, `Mask`'s output also
coincides with the generic copy routine's output.  (As stated the claim
fails: on a record with unknown bytes, complete `Mask` keeps them while the
generic copy drops them under the default settings — see the
counterexample.) -/
theorem C2_wildcard_complete_equivalence (st : Settings) (S : Schema) (t fuel : Nat)
    (anyM d m : Msg) (src : Option Msg)
    (hc : msgConf S t m = true) (hp : msgPlain S m = true) :
    fmParse st S t (fuel + 1) (gs "*") = .ok (.mk t none) ∧
    fmNew st S t fuel [] = .ok (.mk t none) ∧
    msgMaskMask st S (.mk t none) anyM = anyM ∧
    msgMaskClone st S (.mk t none) anyM = copyMessage st S anyM ∧
    msgMaskUpdate st S (.mk t none) d src = updateMessage st S d src ∧
    msgMaskMask st S (.mk t none) m = copyMessage st S m := by
  refine ⟨parse_star st S t fuel, rfl, maskComplete_id st S t anyM,
    cloneComplete_copy st S t anyM, updateComplete_update st S t d src, ?_⟩
  rw [maskComplete_id, copyMessage_id st S t m hc hp]

/-- Witness for the C2 theorem at a concrete schema, record and settings. -/
theorem C2_wildcard_complete_equivalence_witness :
    (msgConf [[]] 0 (.mk 0 [] []) = true ∧ msgPlain [[]] (.mk 0 [] []) = true) ∧
    (fmParse defaultSettings [[]] 0 4 (gs "*") = .ok (.mk 0 none) ∧
     fmNew defaultSettings [[]] 0 3 [] = .ok (.mk 0 none) ∧
     msgMaskMask defaultSettings [[]] (.mk 0 none) (.mk 0 [] [5]) = .mk 0 [] [5] ∧
     msgMaskClone defaultSettings [[]] (.mk 0 none) (.mk 0 [] [5]) =
       copyMessage defaultSettings [[]] (.mk 0 [] [5]) ∧
     msgMaskUpdate defaultSettings [[]] (.mk 0 none) (.mk 0 [] []) none =
       updateMessage defaultSettings [[]] (.mk 0 [] []) none ∧
     msgMaskMask defaultSettings [[]] (.mk 0 none) (.mk 0 [] []) =
       copyMessage defaultSettings [[]] (.mk 0 [] [])) :=
  ⟨⟨by simp [msgConf, chainSorted, fieldsConf], by simp [msgPlain, fieldsPlain]⟩,
    C2_wildcard_complete_equivalence defaultSettings [[]] 0 3 (.mk 0 [] [5]) (.mk 0 [] [])
      (.mk 0 [] []) none (by simp [msgConf, chainSorted, fieldsConf])
      (by simp [msgPlain, fieldsPlain])⟩

/-- C2 counterexample — the claim's "Mask's output equals the generic
whole-record copy routine's output under every settings combination" fails:
under the default settings, on a well-formed record carrying one unknown
byte, `Mask` with the complete mask `*` is the identity (keeping the
unknown byte) while the generic copy drops it. -/
theorem C2_mask_vs_copy_counterexample :
    fmParse defaultSettings [[]] 0 4 (gs "*") = .ok (.mk 0 none) ∧
    msgConf [[]] 0 (.mk 0 [] [1]) = true ∧
    msgMaskMask defaultSettings [[]] (.mk 0 none) (.mk 0 [] [1]) = .mk 0 [] [1] ∧
    copyMessage defaultSettings [[]] (.mk 0 [] [1]) = .mk 0 [] [] ∧
    (Msg.mk 0 [] [1]) ≠ (Msg.mk 0 [] []) := by
  refine ⟨parse_star defaultSettings [[]] 0 3, by simp [msgConf, chainSorted, fieldsConf],
    maskComplete_id defaultSettings [[]] 0 _, ?_, by simp⟩
  simp [copyMessage, copyFields, defaultSettings]

/-- C10 — at the public facade, `Mask` on an invalid (nil) message is a
no-op, `Clone` of an invalid message returns the zero value (nil), and
`Update` with an invalid destination is a no-op: the mask tree is never
entered with an invalid root message. -/
theorem C10_invalid_message_guards (st : Settings) (S : Schema) (mm : MsgMask)
    (src : Option Msg) :
    fmMaskOp st S mm none = none ∧
    fmCloneOp st S mm none = none ∧
    fmUpdateOp st S mm none src = none :=
  ⟨rfl, rfl, rfl⟩

mutual
/-- Well-formedness of a record mask against the schema: wherever a mask
entry's key names a declared field, the child mask's variant matches that
field's kind, recursively, and submask types line up. -/
def msgMaskWF (S : Schema) : MsgMask → Bool
  | .mk _ none => true
  | .mk t (some fs) => maskFieldsWF S (S.msgDecl t) fs

def maskFieldsWF (S : Schema) (ds : MsgDecl) : List (GoStr × FieldMask) → Bool
  | [] => true
  | (key, fm) :: rest =>
    (match ds.find? (fun fd => fd.name = key) with
     | some fd => fieldMaskFits S fd.kind fm
     | none => true)
      && maskFieldsWF S ds rest

def fieldMaskFits (S : Schema) : FieldKind → FieldMask → Bool
  | .scalarK _, .fmScalar => true
  | .listScalarK _, .fmScalarList => true
  | .listMsgK t, .fmMsgList t' inner =>
    t' = t &&
      (match inner with
       | some mm => mm.ty = t && msgMaskWF S mm
       | none => true)
  | .mapScalarK kk _, .fmScalarMap kk' _ => kk' = kk
  | .mapMsgK kk t, .fmMsgMap kk' t' wild keyed =>
    kk' = kk && t' = t &&
      (match wild with
       | some w => w.ty = t && msgMaskWF S w
       | none => true) &&
      (match keyed with
       | some km => keyedWF S t km
       | none => true)
  | .msgK t, .fmMsg inner => inner.ty = t && msgMaskWF S inner
  | _, _ => false

def keyedWF (S : Schema) (t : Nat) : List (Key × MsgMask) → Bool
  | [] => true
  | (_, m) :: rest => (m.ty = t && msgMaskWF S m) && keyedWF S t rest
end

def optMaskWF (S : Schema) (t : Nat) : Option MsgMask → Bool
  | none => true
  | some w => w.ty = t && msgMaskWF S w

def keyedOptWF (S : Schema) (t : Nat) : Option (List (Key × MsgMask)) → Bool
  | none => true
  | some km => keyedWF S t km

theorem keyedWF_lookup {S : Schema} {t : Nat} {km : List (Key × MsgMask)} {k : Key}
    {m : MsgMask} (hwf : keyedWF S t km = true) (h : alookup k km = some m) :
    m.ty = t ∧ msgMaskWF S m = true := by
  induction km with
  | nil => simp [alookup] at h
  | cons e rest ih =>
    obtain ⟨k', m'⟩ := e
    simp only [keyedWF, Bool.and_eq_true] at hwf
    simp only [alookup] at h
    by_cases hk : k = k'
    · rw [if_pos hk] at h
      have : m' = m := by simpa using h
      subst this
      exact ⟨by simpa using hwf.1.1, hwf.1.2⟩
    · rw [if_neg hk] at h
      exact ih hwf.2 h

theorem mapLookupMask_wf {S : Schema} {t : Nat} {wild : Option MsgMask}
    {keyed : Option (List (Key × MsgMask))} {k : Key} {m : MsgMask}
    (hw : optMaskWF S t wild = true) (hk : keyedOptWF S t keyed = true)
    (h : mapLookupMask keyed wild k = some m) : m.ty = t ∧ msgMaskWF S m = true := by
  cases keyed with
  | none =>
    simp [mapLookupMask] at h
    cases wild with
    | none => simp at h
    | some w =>
      simp at h
      subst h
      simp [optMaskWF] at hw
      exact ⟨by simpa using hw.1, hw.2⟩
  | some km =>
    simp only [keyedOptWF] at hk
    cases halk : alookup k km with
    | some m' =>
      simp [mapLookupMask, halk] at h
      subst h
      exact keyedWF_lookup hk halk
    | none =>
      simp [mapLookupMask, halk] at h
      cases wild with
      | none => simp at h
      | some w =>
        simp at h
        subst h
        simp [optMaskWF] at hw
        exact ⟨by simpa using hw.1, hw.2⟩

theorem maskFieldsWF_lookup {S : Schema} {ds : MsgDecl} {fsm : List (GoStr × FieldMask)}
    {n : GoStr} {fm : FieldMask} {fd : FieldDecl}
    (hwf : maskFieldsWF S ds fsm = true) (halk : alookup n fsm = some fm)
    (hfd : ds.find? (fun fd => fd.name = n) = some fd) :
    fieldMaskFits S fd.kind fm = true := by
  induction fsm with
  | nil => simp [alookup] at halk
  | cons e rest ih =>
    obtain ⟨key, fm'⟩ := e
    simp only [maskFieldsWF, Bool.and_eq_true] at hwf
    simp only [alookup] at halk
    by_cases hk : n = key
    · rw [if_pos hk] at halk
      have : fm' = fm := by simpa using halk
      subst this
      subst hk
      rw [hfd] at hwf
      exact hwf.1
    · rw [if_neg hk] at halk
      exact ih hwf.2 halk

theorem strLtB_irrefl (a : GoStr) : strLtB a a = false := by
  induction a with
  | nil => simp [strLtB]
  | cons c cs ih => simp [strLtB, ih]

theorem strLtB_asymm {a b : GoStr} (h : strLtB a b = true) : strLtB b a = false := by
  induction a generalizing b with
  | nil =>
    cases b with
    | nil => simp [strLtB] at h
    | cons c cs => simp [strLtB]
  | cons c cs ih =>
    cases b with
    | nil => simp [strLtB] at h
    | cons d es =>
      simp only [strLtB] at h ⊢
      by_cases hcd : c = d
      · subst hcd
        simp at h ⊢
        exact ih h
      · rw [if_neg hcd] at h
        rw [if_neg (fun hx => hcd hx.symm)]
        simp at h ⊢
        exact le_of_lt h

theorem strLtB_ne {a b : GoStr} (h : strLtB a b = true) : a ≠ b := by
  intro he
  subst he
  rw [strLtB_irrefl] at h
  exact absurd h (by simp)

theorem strLtB_trans {a b c : GoStr} (h1 : strLtB a b = true) (h2 : strLtB b c = true) :
    strLtB a c = true := by
  induction a generalizing b c with
  | nil =>
    cases c with
    | nil =>
      cases b with
      | nil => exact h2
      | cons d es => simp [strLtB] at h2
    | cons _ _ => simp [strLtB]
  | cons x xs ih =>
    cases b with
    | nil => simp [strLtB] at h1
    | cons y ys =>
      cases c with
      | nil => simp [strLtB] at h2
      | cons z zs =>
        simp only [strLtB] at h1 h2 ⊢
        by_cases hxy : x = y
        · subst hxy
          simp at h1
          by_cases hxz : x = z
          · subst hxz
            simp at h2 ⊢
            exact ih h1 h2
          · rw [if_neg hxz] at h2 ⊢
            exact h2
        · rw [if_neg hxy] at h1
          by_cases hyz : y = z
          · subst hyz
            simp [if_neg hxy]
            simpa using h1
          · rw [if_neg hyz] at h2
            simp at h1 h2
            have hxz : x < z := lt_trans h1 h2
            have : x ≠ z := ne_of_lt hxz
            simp [if_neg this, hxz]

theorem ainsert_append {α : Type} {lt : GoStr → GoStr → Bool} {k : GoStr} {v : α}
    {acc : List (GoStr × α)} (h : ∀ e ∈ acc, k ≠ e.1 ∧ lt k e.1 = false) :
    ainsert lt k v acc = acc ++ [(k, v)] := by
  induction acc with
  | nil => simp [ainsert]
  | cons e rest ih =>
    obtain ⟨k', v'⟩ := e
    have he := h (k', v') (by simp)
    simp only [ainsert]
    rw [if_neg he.1, if_neg (by simp [he.2])]
    simp [ih (fun e hm => h e (by simp [hm]))]

theorem aremove_absent {α : Type} {k : GoStr} {fs : List (GoStr × α)}
    (h : ∀ e ∈ fs, e.1 ≠ k) : aremove k fs = fs := by
  induction fs with
  | nil => simp [aremove]
  | cons e rest ih =>
    simp only [aremove, List.filter]
    have he := h e (by simp)
    simp only [aremove] at ih
    simp [he, ih (fun e hm => h e (by simp [hm]))]

theorem chainSorted_head {κ α : Type} {lt : κ → κ → Bool}
    (htr : ∀ a b c : κ, lt a b = true → lt b c = true → lt a c = true)
    {n : κ} {v : α} {rest : List (κ × α)}
    (h : chainSorted lt ((n, v) :: rest) = true) :
    ∀ f ∈ rest, lt n f.1 = true := by
  induction rest generalizing n v with
  | nil => simp
  | cons e rest2 ih =>
    obtain ⟨n2, v2⟩ := e
    simp only [chainSorted, Bool.and_eq_true] at h
    intro f hf
    simp at hf
    rcases hf with hf | hf
    · subst hf
      exact h.1
    · exact htr _ _ _ h.1 (ih h.2 f hf)

theorem chainSorted_tail {κ α : Type} {lt : κ → κ → Bool}
    {e : κ × α} {rest : List (κ × α)}
    (h : chainSorted lt (e :: rest) = true) : chainSorted lt rest = true := by
  cases rest with
  | nil => simp [chainSorted]
  | cons e2 rest2 =>
    obtain ⟨n, v⟩ := e
    obtain ⟨n2, v2⟩ := e2
    simp only [chainSorted, Bool.and_eq_true] at h
    exact h.2

theorem cloneRangeFields_cons_none {fsm : List (GoStr × FieldMask)} {n : GoStr}
    (st : Settings) (S : Schema) (ds : MsgDecl) (v : Val) (rest : List (GoStr × Val))
    (out : Msg) (halk : alookup n fsm = none) :
    cloneRangeFields st S fsm ds ((n, v) :: rest) out =
      cloneRangeFields st S fsm ds rest out := by
  simp only [cloneRangeFields]
  split
  · next fm heq => rw [halk] at heq; cases heq
  · rfl

theorem cloneRangeFields_cons_some {fsm : List (GoStr × FieldMask)} {n : GoStr}
    {fm : FieldMask} {fd : FieldDecl} (st : Settings) (S : Schema) (ds : MsgDecl) (v : Val)
    (rest : List (GoStr × Val)) (out : Msg) (halk : alookup n fsm = some fm)
    (hfd : ds.find? (fun x => x.name = n) = some fd) (hallow : allowFd st fd = true) :
    cloneRangeFields st S fsm ds ((n, v) :: rest) out =
      cloneRangeFields st S fsm ds rest (msgSet out n (fieldMaskClone st S fm v)) := by
  simp only [cloneRangeFields]
  split
  · next fm2 heq =>
    rw [halk] at heq
    cases heq
    simp [hfd, hallow]
  · next heq => rw [halk] at heq; cases heq

theorem maskRangeFields_cons_none {fsm : List (GoStr × FieldMask)} {n : GoStr}
    (st : Settings) (S : Schema) (ds : MsgDecl) (v : Val) (rest : List (GoStr × Val))
    (halk : alookup n fsm = none) :
    maskRangeFields st S fsm ds ((n, v) :: rest) = maskRangeFields st S fsm ds rest := by
  simp only [maskRangeFields]
  split
  · next fm heq => rw [halk] at heq; cases heq
  · simp

theorem maskRangeFields_cons_some {fsm : List (GoStr × FieldMask)} {n : GoStr}
    {fm : FieldMask} {fd : FieldDecl} (st : Settings) (S : Schema) (ds : MsgDecl) (v : Val)
    (rest : List (GoStr × Val)) (halk : alookup n fsm = some fm)
    (hfd : ds.find? (fun x => x.name = n) = some fd) (hallow : allowFd st fd = true) :
    maskRangeFields st S fsm ds ((n, v) :: rest) =
      (if (fieldMaskMask st S fm v).isEmptyContainer then []
        else [(n, fieldMaskMask st S fm v)]) ++ maskRangeFields st S fsm ds rest := by
  simp only [maskRangeFields]
  split
  · next fm2 heq =>
    rw [halk] at heq
    cases heq
    simp [hfd, hallow]
  · next heq => rw [halk] at heq; cases heq

mutual
/-- Masking in place and cloning agree on well-formed plain records. -/
theorem mc_msg (st : Settings) (S : Schema) :
    ∀ (mm : MsgMask) (m : Msg), msgMaskWF S mm = true → msgConf S mm.ty m = true →
      msgPlain S m = true → msgMaskMask st S mm m = msgMaskClone st S mm m
  | .mk tm none, m, _, hc, hp => by
    rw [maskComplete_id, cloneComplete_copy,
      copyMessage_id st S tm m (by simpa [MsgMask.ty] using hc) hp]
  | .mk tm (some fsm), .mk t' fs u, hwf, hc, hp => by
    simp only [MsgMask.ty] at hc
    simp only [msgConf, Bool.and_eq_true, decide_eq_true_eq] at hc
    obtain ⟨⟨ht, hsort⟩, hfc⟩ := hc
    simp only [msgPlain, Bool.and_eq_true] at hp
    obtain ⟨hu, hfp⟩ := hp
    have hu' : u = [] := by simpa [List.isEmpty_iff] using hu
    subst hu'
    simp only [msgMaskWF] at hwf
    rw [ht] at hfp
    have hkey := mc_fields st S fsm (S.msgDecl tm) fs [] tm hwf hsort hfc hfp
      (fun e he => absurd he (List.not_mem_nil e))
    simp only [msgMaskMask, msgMaskClone, MsgMask.fieldsM, Msg.ty, Msg.fields, Msg.unknown]
    rw [ht, hkey]
    simp [msgSetUnknown, Msg.ty, Msg.fields]
termination_by mm _ => (sizeOf mm, 0)

theorem mc_fields (st : Settings) (S : Schema) (fsm : List (GoStr × FieldMask)) (ds : MsgDecl) :
    ∀ (fs : List (GoStr × Val)) (done : List (GoStr × Val)) (ty : Nat),
      maskFieldsWF S ds fsm = true → chainSorted strLtB fs = true →
      fieldsConf S ds fs = true → fieldsPlain S ds fs = true →
      (∀ e ∈ done, ∀ f ∈ fs, strLtB e.1 f.1 = true) →
      cloneRangeFields st S fsm ds fs (Msg.mk ty done []) =
        Msg.mk ty (done ++ maskRangeFields st S fsm ds fs) []
  | [], done, ty, _, _, _, _, _ => by
    simp [cloneRangeFields, maskRangeFields]
  | (n, v) :: rest, done, ty, hwf, hsort, hfc, hfp, hord => by
    simp only [fieldsConf, Bool.and_eq_true] at hfc
    obtain ⟨hfc1, hfc2⟩ := hfc
    simp only [fieldsPlain, Bool.and_eq_true] at hfp
    obtain ⟨hfp1, hfp2⟩ := hfp
    have hsort' := chainSorted_tail hsort
    have hordrest : ∀ e ∈ done, ∀ f ∈ rest, strLtB e.1 f.1 = true :=
      fun e he f hf => hord e he f (by simp [hf])
    cases halk : alookup n fsm with
    | none =>
      rw [cloneRangeFields_cons_none st S ds v rest (Msg.mk ty done []) halk,
        maskRangeFields_cons_none st S ds v rest halk,
        mc_fields st S fsm ds rest done ty hwf hsort' hfc2 hfp2 hordrest]
    | some fm =>
      cases hfd : ds.find? (fun fd => fd.name = n) with
      | none => rw [hfd] at hfc1; simp at hfc1
      | some fd =>
        rw [hfd] at hfc1 hfp1
        simp at hfp1
        obtain ⟨hext, hvp⟩ := hfp1
        have hallow : allowFd st fd = true := by simp [allowFd, hext]
        have hfit := maskFieldsWF_lookup hwf halk hfd
        have _hsz := alookup_sizeOf halk
        have hv := mc_val st S fd.kind fm v hfit hfc1 hvp
        rw [cloneRangeFields_cons_some st S ds v rest (Msg.mk ty done []) halk hfd hallow,
          maskRangeFields_cons_some st S ds v rest halk hfd hallow, ← hv]
        cases hemp : (fieldMaskMask st S fm v).isEmptyContainer with
        | true =>
          have hclear : msgSet (Msg.mk ty done []) n (fieldMaskMask st S fm v) =
              Msg.mk ty done [] := by
            have hne : ∀ e ∈ done, e.1 ≠ n :=
              fun e he => strLtB_ne (hord e he (n, v) (by simp))
            simp [msgSet, hemp, msgClearF, Msg.ty, Msg.fields, Msg.unknown,
              aremove_absent hne]
          rw [hclear, mc_fields st S fsm ds rest done ty hwf hsort' hfc2 hfp2 hordrest]
          simp
        | false =>
          have hset : msgSet (Msg.mk ty done []) n (fieldMaskMask st S fm v) =
              Msg.mk ty (done ++ [(n, fieldMaskMask st S fm v)]) [] := by
            have hins : ∀ e ∈ done, n ≠ e.1 ∧ strLtB n e.1 = false := by
              intro e he
              have h1 := hord e he (n, v) (by simp)
              exact ⟨fun hx => strLtB_ne h1 hx.symm, strLtB_asymm h1⟩
            simp [msgSet, hemp, Msg.ty, Msg.fields, Msg.unknown, ainsert_append hins]
          have hord2 : ∀ e ∈ done ++ [(n, fieldMaskMask st S fm v)], ∀ f ∈ rest,
              strLtB e.1 f.1 = true := by
            intro e he f hf
            rcases List.mem_append.1 he with he | he
            · exact hordrest e he f hf
            · simp at he
              rw [he]
              simpa using @chainSorted_head GoStr Val strLtB
                (fun _ _ _ h1 h2 => strLtB_trans h1 h2) n v rest hsort f hf
          rw [hset,
            mc_fields st S fsm ds rest (done ++ [(n, fieldMaskMask st S fm v)]) ty hwf
              hsort' hfc2 hfp2 hord2]
          simp
termination_by fs _ _ => (sizeOf fsm, 1 + sizeOf fs)

theorem mc_val (st : Settings) (S : Schema) :
    ∀ (k : FieldKind) (fm : FieldMask) (v : Val), fieldMaskFits S k fm = true →
      valConf S k v = true → valPlain S k v = true →
      fieldMaskMask st S fm v = fieldMaskClone st S fm v
  | .scalarK _, fm, v, hfit, _, _ => by
    cases fm <;> simp [fieldMaskFits] at hfit
    simp [fieldMaskMask, fieldMaskClone]
  | .listScalarK _, fm, v, hfit, _, _ => by
    cases fm <;> simp [fieldMaskFits] at hfit
    simp [fieldMaskMask, fieldMaskClone]
  | .listMsgK t, .fmMsgList t' none, v, _, hc, hp => by
    cases v <;> simp [valConf] at hc
    case vListM ms =>
    simp only [valPlain] at hp
    simp only [fieldMaskMask, fieldMaskClone]
    rw [copyMsgs_id st S t ms hc.2 hp]
  | .listMsgK t, .fmMsgList t' (some mm), v, hfit, hc, hp => by
    cases v <;> simp [valConf] at hc
    case vListM ms =>
    simp only [valPlain] at hp
    simp only [fieldMaskFits, Bool.and_eq_true, decide_eq_true_eq] at hfit
    obtain ⟨_, hty, hwf⟩ := hfit
    simp only [fieldMaskMask, fieldMaskClone]
    rw [mc_msgs st S mm t ms hty hwf hc.2 hp]
  | .listMsgK t, .fmScalar, v, hfit, _, _ => by simp [fieldMaskFits] at hfit
  | .listMsgK t, .fmScalarList, v, hfit, _, _ => by simp [fieldMaskFits] at hfit
  | .listMsgK t, .fmScalarMap _ _, v, hfit, _, _ => by simp [fieldMaskFits] at hfit
  | .listMsgK t, .fmMsgMap _ _ _ _, v, hfit, _, _ => by simp [fieldMaskFits] at hfit
  | .listMsgK t, .fmMsg _, v, hfit, _, _ => by simp [fieldMaskFits] at hfit
  | .mapScalarK _ _, fm, v, hfit, _, _ => by
    cases fm <;> simp [fieldMaskFits] at hfit
    case fmScalarMap kk' keys =>
    cases keys with
    | none => simp [fieldMaskMask, fieldMaskClone]
    | some ks => cases v <;> simp [fieldMaskMask, fieldMaskClone]
  | .mapMsgK kk t, .fmMsgMap kk' t'' none none, v, hfit, hc, hp => by
    cases v <;> simp [valConf] at hc
    case vMapM es =>
    simp only [valPlain] at hp
    simp only [fieldMaskFits, Bool.and_eq_true, decide_eq_true_eq] at hfit
    obtain ⟨⟨⟨hkk, hty⟩, hw⟩, hk⟩ := hfit
    subst hty
    simp [fieldMaskMask, fieldMaskClone, copyMsgMap_id st S t'' es hc.2 hp]
  | .mapMsgK kk t, .fmMsgMap kk' t'' none (some km), v, hfit, hc, hp => by
    cases v <;> simp [valConf] at hc
    case vMapM es =>
    simp only [valPlain] at hp
    simp only [fieldMaskFits, Bool.and_eq_true, decide_eq_true_eq] at hfit
    obtain ⟨⟨⟨hkk, hty⟩, hw⟩, hk⟩ := hfit
    subst hty
    have hww : optMaskWF S t'' none = true := by simp [optMaskWF]
    have hkk2 : keyedOptWF S t'' (some km) = true := by simpa [keyedOptWF] using hk
    have _hkp : 0 < sizeOf kk' := keyKind_sizeOf_pos kk'
    simp only [fieldMaskMask, fieldMaskClone, Option.isNone_some, Option.isNone_none,
      Bool.false_and, Bool.and_false, Bool.true_and, Bool.false_eq_true, if_false]
    rw [mc_kms st S none (some km) t'' es hww hkk2 hc.2 hp]
  | .mapMsgK kk t, .fmMsgMap kk' t'' (some w) none, v, hfit, hc, hp => by
    cases v <;> simp [valConf] at hc
    case vMapM es =>
    simp only [valPlain] at hp
    simp only [fieldMaskFits, Bool.and_eq_true, decide_eq_true_eq] at hfit
    obtain ⟨⟨⟨hkk, hty⟩, hw⟩, hk⟩ := hfit
    subst hty
    have hww : optMaskWF S t'' (some w) = true := by
      simp only [optMaskWF]
      simp [hw.1, hw.2]
    have hkk2 : keyedOptWF S t'' none = true := by simp [keyedOptWF]
    have _hkp : 0 < sizeOf kk' := keyKind_sizeOf_pos kk'
    simp only [fieldMaskMask, fieldMaskClone, Option.isNone_some, Option.isNone_none,
      Bool.false_and, Bool.and_false, Bool.true_and, Bool.false_eq_true, if_false]
    rw [mc_kms st S (some w) none t'' es hww hkk2 hc.2 hp]
  | .mapMsgK kk t, .fmMsgMap kk' t'' (some w) (some km), v, hfit, hc, hp => by
    cases v <;> simp [valConf] at hc
    case vMapM es =>
    simp only [valPlain] at hp
    simp only [fieldMaskFits, Bool.and_eq_true, decide_eq_true_eq] at hfit
    obtain ⟨⟨⟨hkk, hty⟩, hw⟩, hk⟩ := hfit
    subst hty
    have hww : optMaskWF S t'' (some w) = true := by
      simp only [optMaskWF]
      simp [hw.1, hw.2]
    have hkk2 : keyedOptWF S t'' (some km) = true := by simpa [keyedOptWF] using hk
    have _hkp : 0 < sizeOf kk' := keyKind_sizeOf_pos kk'
    simp only [fieldMaskMask, fieldMaskClone, Option.isNone_some, Option.isNone_none,
      Bool.false_and, Bool.and_false, Bool.true_and, Bool.false_eq_true, if_false]
    rw [mc_kms st S (some w) (some km) t'' es hww hkk2 hc.2 hp]
  | .mapMsgK kk t, .fmScalar, v, hfit, _, _ => by simp [fieldMaskFits] at hfit
  | .mapMsgK kk t, .fmScalarList, v, hfit, _, _ => by simp [fieldMaskFits] at hfit
  | .mapMsgK kk t, .fmScalarMap _ _, v, hfit, _, _ => by simp [fieldMaskFits] at hfit
  | .mapMsgK kk t, .fmMsgList _ _, v, hfit, _, _ => by simp [fieldMaskFits] at hfit
  | .mapMsgK kk t, .fmMsg _, v, hfit, _, _ => by simp [fieldMaskFits] at hfit
  | .msgK t, .fmMsg inner, v, hfit, hc, hp => by
    cases v <;> simp [valConf] at hc
    case vMsg m =>
    simp only [valPlain] at hp
    simp only [fieldMaskFits, Bool.and_eq_true, decide_eq_true_eq] at hfit
    obtain ⟨hty, hwf⟩ := hfit
    simp only [fieldMaskMask, fieldMaskClone]
    rw [mc_msg st S inner m hwf (by rw [hty]; exact hc) hp]
  | .msgK t, .fmScalar, v, hfit, _, _ => by simp [fieldMaskFits] at hfit
  | .msgK t, .fmScalarList, v, hfit, _, _ => by simp [fieldMaskFits] at hfit
  | .msgK t, .fmScalarMap _ _, v, hfit, _, _ => by simp [fieldMaskFits] at hfit
  | .msgK t, .fmMsgList _ _, v, hfit, _, _ => by simp [fieldMaskFits] at hfit
  | .msgK t, .fmMsgMap _ _ _ _, v, hfit, _, _ => by simp [fieldMaskFits] at hfit
termination_by _k fm _ => (sizeOf fm, 0)

theorem mc_msgs (st : Settings) (S : Schema) (mm : MsgMask) (t : Nat) :
    ∀ (ms : List Msg), mm.ty = t → msgMaskWF S mm = true → msgsConf S t ms = true →
      msgsPlain S ms = true → maskMsgs st S mm ms = cloneMsgs st S mm ms
  | [], _, _, _, _ => by simp [maskMsgs, cloneMsgs]
  | e :: rest, hty, hwf, hc, hp => by
    simp only [msgsConf, Bool.and_eq_true] at hc
    simp only [msgsPlain, Bool.and_eq_true] at hp
    simp only [maskMsgs, cloneMsgs]
    rw [mc_msg st S mm e hwf (by rw [hty]; exact hc.1) hp.1,
      mc_msgs st S mm t rest hty hwf hc.2 hp.2]
termination_by ms => (sizeOf mm, 1 + sizeOf ms)

theorem mc_kms (st : Settings) (S : Schema) (wild : Option MsgMask)
    (keyed : Option (List (Key × MsgMask))) (t : Nat) :
    ∀ (es : List (Key × Msg)), optMaskWF S t wild = true → keyedOptWF S t keyed = true →
      msgKMapConf S t es = true → kmsPlain S es = true →
      maskMsgMapGo st S wild keyed es = cloneMsgMapGo st S wild keyed es
  | [], _, _, _, _ => by simp [maskMsgMapGo, cloneMsgMapGo]
  | (k, m) :: rest, hw, hk, hc, hp => by
    simp only [msgKMapConf, Bool.and_eq_true] at hc
    simp only [kmsPlain, Bool.and_eq_true] at hp
    simp only [maskMsgMapGo, cloneMsgMapGo]
    rw [mc_kms st S wild keyed t rest hw hk hc.2 hp.2]
    cases hlm : mapLookupMask keyed wild k with
    | none => simp
    | some mmk =>
      have hmw := mapLookupMask_wf hw hk hlm
      have _hsz := mapLookupMask_sizeOf hlm
      simp only
      rw [mc_msg st S mmk m hmw.2 (by rw [hmw.1]; exact hc.1) hp.1]
termination_by es => (1 + sizeOf wild + sizeOf keyed, 1 + sizeOf es)
end

/-- C1 — for every valid mask (any path set, any settings combination) and
every well-formed record: taking a deep copy of the record, masking it in
place, and comparing yields a record deep-equal to the mask's clone of the
record.  Values here are immutable, so the deep copy of `m` is `m` itself
and the claim reads `mask mm m = clone mm m`.  As stated (for all
well-formed records) the claim fails on records carrying unknown bytes —
see the counterexample; it holds whenever the record additionally carries
no unknown bytes and no set extension fields, recursively. -/
theorem C1_mask_clone_equivalence (st : Settings) (S : Schema) (mm : MsgMask) (m : Msg)
    (hwf : msgMaskWF S mm = true) (hc : msgConf S mm.ty m = true)
    (hp : msgPlain S m = true) :
    msgMaskMask st S mm m = msgMaskClone st S mm m :=
  mc_msg st S mm m hwf hc hp

/-- C1 counterexample — under the default settings, the complete mask and a
well-formed record holding a single unknown byte: `mask` keeps the record
unchanged (unknown byte included) while `clone` routes through the generic
copy, which drops the unknown byte, so the two results are not deep-equal. -/
theorem C1_mask_clone_counterexample :
    msgMaskWF [[]] (.mk 0 none) = true ∧
    msgConf [[]] (MsgMask.ty (.mk 0 none)) (.mk 0 [] [2]) = true ∧
    msgMaskMask defaultSettings [[]] (.mk 0 none) (.mk 0 [] [2]) ≠
      msgMaskClone defaultSettings [[]] (.mk 0 none) (.mk 0 [] [2]) := by
  refine ⟨by simp [msgMaskWF],
    by simp [msgConf, MsgMask.ty, chainSorted, fieldsConf], ?_⟩
  rw [maskComplete_id, cloneComplete_copy]
  simp [copyMessage, copyFields, defaultSettings]

/-- Witness for the C1 theorem: a one-field schema, the mask selecting that
scalar field, and a conformant plain record. -/
theorem C1_mask_clone_equivalence_witness :
    (msgMaskWF [[⟨gs "a", gs "a", .scalarK 0, false⟩]]
        (.mk 0 (some [(gs "a", .fmScalar)])) = true ∧
     msgConf [[⟨gs "a", gs "a", .scalarK 0, false⟩]]
        (MsgMask.ty (.mk 0 (some [(gs "a", .fmScalar)])))
        (.mk 0 [(gs "a", .vScalar 7)] []) = true ∧
     msgPlain [[⟨gs "a", gs "a", .scalarK 0, false⟩]]
        (.mk 0 [(gs "a", .vScalar 7)] []) = true) ∧
    msgMaskMask defaultSettings [[⟨gs "a", gs "a", .scalarK 0, false⟩]]
        (.mk 0 (some [(gs "a", .fmScalar)])) (.mk 0 [(gs "a", .vScalar 7)] []) =
      msgMaskClone defaultSettings [[⟨gs "a", gs "a", .scalarK 0, false⟩]]
        (.mk 0 (some [(gs "a", .fmScalar)])) (.mk 0 [(gs "a", .vScalar 7)] []) :=
  ⟨⟨by simp [msgMaskWF, maskFieldsWF, fieldMaskFits, Schema.msgDecl, gs],
    by simp [msgConf, MsgMask.ty, chainSorted, fieldsConf, valConf, Schema.msgDecl, gs],
    by simp [msgPlain, fieldsPlain, valPlain, Schema.msgDecl, gs]⟩,
   C1_mask_clone_equivalence defaultSettings [[⟨gs "a", gs "a", .scalarK 0, false⟩]]
     (.mk 0 (some [(gs "a", .fmScalar)])) (.mk 0 [(gs "a", .vScalar 7)] [])
     (by simp [msgMaskWF, maskFieldsWF, fieldMaskFits, Schema.msgDecl, gs])
     (by simp [msgConf, MsgMask.ty, chainSorted, fieldsConf, valConf, Schema.msgDecl, gs])
     (by simp [msgPlain, fieldsPlain, valPlain, Schema.msgDecl, gs])⟩

theorem keyLtB_ne {a b : Key} (h : keyLtB a b = true) : a ≠ b := by
  intro he
  subst he
  cases a <;> simp [keyLtB, strLtB_irrefl] at h

theorem keyLtB_trans {a b c : Key} (h1 : keyLtB a b = true) (h2 : keyLtB b c = true) :
    keyLtB a c = true := by
  cases a <;> cases b <;> cases c <;> simp_all [keyLtB, keyTag] <;> try omega
  all_goals exact strLtB_trans (by assumption) (by assumption)

theorem strLtB_transE : ∀ a b c : GoStr,
    strLtB a b = true → strLtB b c = true → strLtB a c = true :=
  fun _ _ _ h1 h2 => strLtB_trans h1 h2

theorem strLtB_neE : ∀ a b : GoStr, strLtB a b = true → a ≠ b :=
  fun _ _ h => strLtB_ne h

theorem keyLtB_transE : ∀ a b c : Key,
    keyLtB a b = true → keyLtB b c = true → keyLtB a c = true :=
  fun _ _ _ h1 h2 => keyLtB_trans h1 h2

theorem keyLtB_neE : ∀ a b : Key, keyLtB a b = true → a ≠ b :=
  fun _ _ h => keyLtB_ne h

theorem alookup_mem {κ α : Type} [DecidableEq κ] {k : κ} {v : α} :
    ∀ {es : List (κ × α)}, alookup k es = some v → (k, v) ∈ es := by
  intro es
  induction es with
  | nil => intro h; simp [alookup] at h
  | cons e rest ih =>
    intro h
    obtain ⟨k', v'⟩ := e
    simp only [alookup] at h
    by_cases hk : k = k'
    · subst hk
      rw [if_pos rfl] at h
      cases h
      exact List.mem_cons_self _ _
    · rw [if_neg hk] at h
      exact List.mem_cons_of_mem _ (ih h)

/-- Re-inserting the value found at a key into a sorted association list is
the identity: the model of Go's `m[k] = v` after `v, ok := m[k]`. -/
theorem ainsert_lookup_self {κ α : Type} [DecidableEq κ] {lt : κ → κ → Bool}
    (htr : ∀ a b c : κ, lt a b = true → lt b c = true → lt a c = true)
    (hne : ∀ a b : κ, lt a b = true → a ≠ b) :
    ∀ (es : List (κ × α)) (k : κ) (v : α), chainSorted lt es = true →
      alookup k es = some v → ainsert lt k v es = es
  | [], k, v, _, h => by simp [alookup] at h
  | (k', v') :: rest, k, v, hs, h => by
    simp only [alookup] at h
    simp only [ainsert]
    by_cases hk : k = k'
    · subst hk
      rw [if_pos rfl] at h
      cases h
      simp
    · rw [if_neg hk] at h
      have hmem := alookup_mem h
      have hlt : lt k k' = false := by
        cases hlt : lt k k' with
        | false => rfl
        | true =>
          have hall := chainSorted_head htr hs (k, v) hmem
          exact absurd rfl (hne k k (htr k k' k hlt hall))
      rw [if_neg hk, if_neg (by simp [hlt]),
        ainsert_lookup_self htr hne rest k v (chainSorted_tail hs) h]

mutual
/-- The representation invariant the construction routines maintain: every
field table and keyed-submask table in the mask tree is sorted (they are
only ever written through `ainsert`, the model of the Go sorted-map
write). -/
def msgMaskSorted : MsgMask → Bool
  | .mk _ none => true
  | .mk _ (some fs) => chainSorted strLtB fs && maskFieldsSorted fs

def maskFieldsSorted : List (GoStr × FieldMask) → Bool
  | [] => true
  | (_, fm) :: rest => fieldMaskSorted fm && maskFieldsSorted rest

def fieldMaskSorted : FieldMask → Bool
  | .fmScalar => true
  | .fmScalarList => true
  | .fmScalarMap _ _ => true
  | .fmMsgList _ none => true
  | .fmMsgList _ (some mm) => msgMaskSorted mm
  | .fmMsg mm => msgMaskSorted mm
  | .fmMsgMap _ _ wild keyed =>
    (match wild with
     | some w => msgMaskSorted w
     | none => true) &&
    (match keyed with
     | some km => chainSorted keyLtB km && keyedSorted km
     | none => true)

def keyedSorted : List (Key × MsgMask) → Bool
  | [] => true
  | (_, m) :: rest => msgMaskSorted m && keyedSorted rest
end

theorem maskFieldsSorted_lookup {fsm : List (GoStr × FieldMask)} {n : GoStr} {fm : FieldMask} :
    maskFieldsSorted fsm = true → alookup n fsm = some fm → fieldMaskSorted fm = true := by
  induction fsm with
  | nil => intro _ h; simp [alookup] at h
  | cons e rest ih =>
    intro hs h
    obtain ⟨k', fm'⟩ := e
    simp only [maskFieldsSorted, Bool.and_eq_true] at hs
    simp only [alookup] at h
    by_cases hk : n = k'
    · subst hk
      rw [if_pos rfl] at h
      cases h
      exact hs.1
    · rw [if_neg hk] at h
      exact ih hs.2 h

theorem keyedSorted_lookup {km : List (Key × MsgMask)} {k : Key} {m : MsgMask} :
    keyedSorted km = true → alookup k km = some m → msgMaskSorted m = true := by
  induction km with
  | nil => intro _ h; simp [alookup] at h
  | cons e rest ih =>
    intro hs h
    obtain ⟨k', m'⟩ := e
    simp only [keyedSorted, Bool.and_eq_true] at hs
    simp only [alookup] at h
    by_cases hk : k = k'
    · subst hk
      rw [if_pos rfl] at h
      cases h
      exact hs.1
    · rw [if_neg hk] at h
      exact ih hs.2 h

theorem scalarMapAdd_err {kk : KeyKind} {keys : Option (List Key)} {p : GoStr} {e : GoErr}
    {keys' : Option (List Key)} (h : scalarMapAdd kk keys p = .err e keys') : keys' = keys := by
  simp only [scalarMapAdd] at h
  by_cases hp0 : p = [] ∨ p = ['*']
  · rw [if_pos hp0] at h; simp at h
  · rw [if_neg hp0] at h
    cases hseg : nextSegment p with
    | none => simp only [hseg] at h; injection h with _ h2; exact h2.symm
    | some seg =>
      obtain ⟨name, sub⟩ := seg
      simp only [hseg] at h
      by_cases hn : name = ['*']
      · rw [if_pos hn] at h
        by_cases hsub : sub ≠ []
        · rw [if_pos hsub] at h; injection h with _ h2; exact h2.symm
        · rw [if_neg hsub] at h; simp at h
      · rw [if_neg hn] at h
        cases hkp : keyParse kk name with
        | none => simp only [hkp] at h; injection h with _ h2; exact h2.symm
        | some k =>
          simp only [hkp] at h
          by_cases hsub : sub ≠ []
          · rw [if_pos hsub] at h; injection h with _ h2; exact h2.symm
          · rw [if_neg hsub] at h; simp at h

theorem fieldMaskSorted_wild {kk : KeyKind} {t : Nat} {w : MsgMask}
    {keyed : Option (List (Key × MsgMask))}
    (hs : fieldMaskSorted (.fmMsgMap kk t (some w) keyed) = true) :
    msgMaskSorted w = true := by
  cases keyed <;>
    · simp only [fieldMaskSorted, Bool.and_eq_true] at hs
      exact hs.1

theorem fieldMaskSorted_keyed {kk : KeyKind} {t : Nat} {wild : Option MsgMask}
    {km : List (Key × MsgMask)}
    (hs : fieldMaskSorted (.fmMsgMap kk t wild (some km)) = true) :
    chainSorted keyLtB km = true ∧ keyedSorted km = true := by
  cases wild <;>
    · simp only [fieldMaskSorted, Bool.and_eq_true] at hs
      exact hs.2

mutual
/-- `msgMask.append` returning an error leaves the mask exactly as it was. -/
theorem ap_msg (st : Settings) (S : Schema) :
    ∀ (fuel : Nat) (mm : MsgMask) (p : GoStr) (e : GoErr) (mm' : MsgMask),
      msgMaskSorted mm = true → msgMaskAppend st S fuel mm p = .err e mm' → mm' = mm
  | 0, _, _, _, _, _, h => by simp [msgMaskAppend] at h
  | fuel + 1, .mk ty none, p, e, mm', _, h => by
    simp only [msgMaskAppend, MsgMask.ty, MsgMask.fieldsM] at h
    by_cases hp0 : p = [] ∨ p = ['*']
    · rw [if_pos hp0] at h; simp at h
    · rw [if_neg hp0] at h
      cases hseg : nextSegment p with
      | none => simp only [hseg] at h; injection h with _ h2; exact h2.symm
      | some seg =>
        obtain ⟨name, sub⟩ := seg
        simp only [hseg] at h
        cases hlk : lookupField st (S.msgDecl ty) name with
        | none => simp only [hlk] at h; injection h with _ h2; exact h2.symm
        | some kf =>
          obtain ⟨key, fd⟩ := kf
          simp only [hlk] at h
          simp at h
  | fuel + 1, .mk ty (some fs), p, e, mm', hs, h => by
    simp only [msgMaskAppend, MsgMask.ty, MsgMask.fieldsM] at h
    by_cases hp0 : p = [] ∨ p = ['*']
    · rw [if_pos hp0] at h; simp at h
    · rw [if_neg hp0] at h
      cases hseg : nextSegment p with
      | none => simp only [hseg] at h; injection h with _ h2; exact h2.symm
      | some seg =>
        obtain ⟨name, sub⟩ := seg
        simp only [hseg] at h
        cases hlk : lookupField st (S.msgDecl ty) name with
        | none => simp only [hlk] at h; injection h with _ h2; exact h2.symm
        | some kf =>
          obtain ⟨key, fd⟩ := kf
          simp only [hlk] at h
          obtain ⟨hsort, hfsort⟩ : chainSorted strLtB fs = true ∧ maskFieldsSorted fs = true := by
            simpa [msgMaskSorted, Bool.and_eq_true] using hs
          cases halk : alookup key fs with
          | some fld =>
            simp only [halk] at h
            cases hap : fieldMaskAppend st S fuel fld sub with
            | ok fld2 => simp only [hap] at h; simp at h
            | err e2 fld2 =>
              simp only [hap] at h
              injection h with _ h2
              have hfld : fld2 = fld :=
                ap_fld st S fuel fld sub e2 fld2 (maskFieldsSorted_lookup hfsort halk) hap
              rw [hfld, ainsert_lookup_self strLtB_transE strLtB_neE fs key fld hsort halk]
                at h2
              exact h2.symm
            | panicked => simp only [hap] at h; simp at h
            | out => simp only [hap] at h; simp at h
          | none =>
            simp only [halk] at h
            cases hini : fieldMaskInit st S fuel (mkFieldMask fd.kind) sub with
            | ok fld2 => simp only [hini] at h; simp at h
            | err e2 fld2 => simp only [hini] at h; injection h with _ h2; exact h2.symm
            | panicked => simp only [hini] at h; simp at h
            | out => simp only [hini] at h; simp at h
termination_by fuel _ _ _ _ => (fuel, 0, 0)

/-- `fieldMask.append` returning an error leaves the field mask as it was. -/
theorem ap_fld (st : Settings) (S : Schema) :
    ∀ (fuel : Nat) (fm : FieldMask) (p : GoStr) (e : GoErr) (fm' : FieldMask),
      fieldMaskSorted fm = true → fieldMaskAppend st S fuel fm p = .err e fm' → fm' = fm
  | _fuel, .fmScalar, p, e, fm', _, h => by
    simp only [fieldMaskAppend] at h
    cases ha : addScalarPath p with
    | none => simp only [ha] at h; simp at h
    | some e2 => simp only [ha] at h; injection h with _ h2; exact h2.symm
  | _fuel, .fmScalarList, p, e, fm', _, h => by
    simp only [fieldMaskAppend] at h
    cases ha : scalarListAdd p with
    | none => simp only [ha] at h; simp at h
    | some e2 => simp only [ha] at h; injection h with _ h2; exact h2.symm
  | fuel, .fmMsgList t inner, p, e, fm', hs, h => by
    simp only [fieldMaskAppend] at h
    by_cases hp0 : p = [] ∨ p = ['*']
    · rw [if_pos hp0] at h; simp at h
    · rw [if_neg hp0] at h
      cases hseg : nextSegment p with
      | none => simp only [hseg] at h; injection h with _ h2; exact h2.symm
      | some seg =>
        obtain ⟨tok, sub⟩ := seg
        simp only [hseg] at h
        by_cases htok : tok ≠ ['*']
        · rw [if_pos htok] at h; injection h with _ h2; exact h2.symm
        · rw [if_neg htok] at h
          cases inner with
          | none => simp at h
          | some mm =>
            cases hap : msgMaskAppend st S fuel mm sub with
            | ok mm2 => simp only [hap] at h; simp at h
            | err e2 mm2 =>
              simp only [hap] at h
              injection h with _ h2
              rw [ap_msg st S fuel mm sub e2 mm2 (by simpa [fieldMaskSorted] using hs) hap]
                at h2
              exact h2.symm
            | panicked => simp only [hap] at h; simp at h
            | out => simp only [hap] at h; simp at h
  | _fuel, .fmScalarMap kk keys, p, e, fm', _, h => by
    simp only [fieldMaskAppend] at h
    cases keys with
    | none => simp at h
    | some ks =>
      simp only [Option.isNone_some, Bool.false_eq_true, if_false] at h
      cases hsm : scalarMapAdd kk (some ks) p with
      | ok keys2 => simp only [hsm] at h; simp at h
      | err e2 keys2 =>
        simp only [hsm] at h
        injection h with _ h2
        rw [scalarMapAdd_err hsm] at h2
        exact h2.symm
      | panicked => simp only [hsm] at h; simp at h
      | out => simp only [hsm] at h; simp at h
  | fuel, .fmMsgMap kk t wild keyed, p, e, fm', hs, h => by
    simp only [fieldMaskAppend] at h
    by_cases hb : (keyed.isNone && wild.isNone) = true
    · rw [if_pos hb] at h; simp at h
    · rw [if_neg hb] at h
      exact ap_mapAdd st S fuel kk t wild keyed p e fm' hs h
  | fuel, .fmMsg inner, p, e, fm', hs, h => by
    simp only [fieldMaskAppend] at h
    cases hap : msgMaskAppend st S fuel inner p with
    | ok mm2 => simp only [hap] at h; simp at h
    | err e2 mm2 =>
      simp only [hap] at h
      injection h with _ h2
      rw [ap_msg st S fuel inner p e2 mm2 (by simpa [fieldMaskSorted] using hs) hap] at h2
      exact h2.symm
    | panicked => simp only [hap] at h; simp at h
    | out => simp only [hap] at h; simp at h
termination_by fuel _ _ _ _ => (fuel, 4, 0)

/-- `msgMapFieldMask.add` returning an error leaves the map mask as it was. -/
theorem ap_mapAdd (st : Settings) (S : Schema) :
    ∀ (fuel : Nat) (kk : KeyKind) (t : Nat) (wild : Option MsgMask)
      (keyed : Option (List (Key × MsgMask))) (p : GoStr) (e : GoErr) (fm' : FieldMask),
      fieldMaskSorted (.fmMsgMap kk t wild keyed) = true →
      msgMapAdd st S fuel kk t wild keyed p = .err e fm' → fm' = .fmMsgMap kk t wild keyed
  | fuel, kk, t, wild, keyed, p, e, fm', hs, h => by
    unfold msgMapAdd at h
    by_cases hp0 : p = [] ∨ p = ['*']
    · rw [if_pos hp0] at h; simp at h
    · rw [if_neg hp0] at h
      cases hseg : nextSegment p with
      | none => simp only [hseg] at h; injection h with _ h2; exact h2.symm
      | some seg =>
        obtain ⟨name, sub⟩ := seg
        simp only [hseg] at h
        by_cases hn : name = ['*']
        · rw [if_pos hn] at h
          exact ap_wild st S fuel kk t wild keyed sub e fm' hs h
        · rw [if_neg hn] at h
          exact ap_keyed st S fuel kk t wild keyed name sub e fm' hs h
termination_by fuel _ _ _ _ _ _ _ => (fuel, 3, 0)

/-- `msgMapFieldMask.addWild` returning an error leaves the map mask as it
was (propagation failures panic instead of erroring). -/
theorem ap_wild (st : Settings) (S : Schema) :
    ∀ (fuel : Nat) (kk : KeyKind) (t : Nat) (wild : Option MsgMask)
      (keyed : Option (List (Key × MsgMask))) (sub : GoStr) (e : GoErr) (fm' : FieldMask),
      fieldMaskSorted (.fmMsgMap kk t wild keyed) = true →
      msgMapAddWild st S fuel kk t wild keyed sub = .err e fm' →
      fm' = .fmMsgMap kk t wild keyed
  | fuel, kk, t, wild, keyed, sub, e, fm', hs, h => by
    unfold msgMapAddWild at h
    by_cases hs0 : sub = []
    · rw [if_pos hs0] at h; simp at h
    · rw [if_neg hs0] at h
      cases wild with
      | none =>
        cases hini : msgMaskInit st S fuel (.mk t none) sub with
        | ok w2 =>
          simp only [hini] at h
          cases keyed with
          | none => simp at h
          | some km =>
            cases hpr : propagateAll st S fuel sub km with
            | ok km2 => simp only [hpr] at h; simp at h
            | err e2 r => simp only [hpr] at h; simp at h
            | panicked => simp only [hpr] at h; simp at h
            | out => simp only [hpr] at h; simp at h
        | err e2 w2 => simp only [hini] at h; injection h with _ h2; exact h2.symm
        | panicked => simp only [hini] at h; simp at h
        | out => simp only [hini] at h; simp at h
      | some w =>
        cases hap : msgMaskAppend st S fuel w sub with
        | ok w2 =>
          simp only [hap] at h
          cases keyed with
          | none => simp at h
          | some km =>
            cases hpr : propagateAll st S fuel sub km with
            | ok km2 => simp only [hpr] at h; simp at h
            | err e2 r => simp only [hpr] at h; simp at h
            | panicked => simp only [hpr] at h; simp at h
            | out => simp only [hpr] at h; simp at h
        | err e2 w2 =>
          simp only [hap] at h
          injection h with _ h2
          rw [ap_msg st S fuel w sub e2 w2 (fieldMaskSorted_wild hs) hap] at h2
          exact h2.symm
        | panicked => simp only [hap] at h; simp at h
        | out => simp only [hap] at h; simp at h
termination_by fuel _ _ _ _ _ _ _ => (fuel, 2, 0)

/-- `msgMapFieldMask.addKeyed` returning an error leaves the map mask as it
was (seeding failures panic instead of erroring). -/
theorem ap_keyed (st : Settings) (S : Schema) :
    ∀ (fuel : Nat) (kk : KeyKind) (t : Nat) (wild : Option MsgMask)
      (keyed : Option (List (Key × MsgMask))) (key sub : GoStr) (e : GoErr) (fm' : FieldMask),
      fieldMaskSorted (.fmMsgMap kk t wild keyed) = true →
      msgMapAddKeyed st S fuel kk t wild keyed key sub = .err e fm' →
      fm' = .fmMsgMap kk t wild keyed
  | fuel, kk, t, wild, keyed, key, sub, e, fm', hs, h => by
    unfold msgMapAddKeyed at h
    cases hkp : keyParse kk key with
    | none => simp only [hkp] at h; injection h with _ h2; exact h2.symm
    | some k =>
      simp only [hkp] at h
      cases keyed with
      | none =>
        simp only [Option.getD_none, alookup] at h
        cases hini : msgMaskInit st S fuel (.mk t none) sub with
        | err e2 m0 => simp only [hini] at h; injection h with _ h2; exact h2.symm
        | panicked => simp only [hini] at h; simp at h
        | out => simp only [hini] at h; simp at h
        | ok m0 =>
          simp only [hini] at h
          cases wild with
          | none => simp at h
          | some w =>
            cases hsd : seedAll st S fuel m0 (msgMaskPaths w) with
            | ok m1 => simp only [hsd] at h; simp at h
            | err e2 r => simp only [hsd] at h; simp at h
            | panicked => simp only [hsd] at h; simp at h
            | out => simp only [hsd] at h; simp at h
      | some km =>
        simp only [Option.getD_some] at h
        cases halk : alookup k km with
        | some m =>
          simp only [halk] at h
          cases hap : msgMaskAppend st S fuel m sub with
          | ok m2 => simp only [hap] at h; simp at h
          | err e2 m2 =>
            simp only [hap] at h
            injection h with _ h2
            have hsk := fieldMaskSorted_keyed hs
            have hm : m2 = m :=
              ap_msg st S fuel m sub e2 m2 (keyedSorted_lookup hsk.2 halk) hap
            rw [hm, ainsert_lookup_self keyLtB_transE keyLtB_neE km k m hsk.1 halk] at h2
            exact h2.symm
          | panicked => simp only [hap] at h; simp at h
          | out => simp only [hap] at h; simp at h
        | none =>
          simp only [halk] at h
          cases hini : msgMaskInit st S fuel (.mk t none) sub with
          | err e2 m0 => simp only [hini] at h; injection h with _ h2; exact h2.symm
          | panicked => simp only [hini] at h; simp at h
          | out => simp only [hini] at h; simp at h
          | ok m0 =>
            simp only [hini] at h
            cases wild with
            | none => simp at h
            | some w =>
              cases hsd : seedAll st S fuel m0 (msgMaskPaths w) with
              | ok m1 => simp only [hsd] at h; simp at h
              | err e2 r => simp only [hsd] at h; simp at h
              | panicked => simp only [hsd] at h; simp at h
              | out => simp only [hsd] at h; simp at h
termination_by fuel _ _ _ _ _ _ _ _ => (fuel, 2, 0)
end
